import Mathlib

/-!
# Verification of the redis-fs `fs` module specification

The repository ships only the Python client, CLI, agent and the behavioural
test-suite of the Redis module `fs`; the module itself (the CORE of the spec)
is not part of the source tree.  Following the spec (§1, §2: "the module
itself is not in the repo, but its behavior is fully specified by the test
suite"), the filesystem below is *modelled from the spec*: volumes, path
normalisation, the resolver with symlink-hop counting, the `FS.*` command
surface needed by the claims, and the key-lifecycle rules.  Byte strings are
`List Nat`; machine integers are `Nat`/`Int`.

The Python client's error translation (`redis_fs/client.py`, which *is* in
the source tree) is embedded separately at the end.
-/

namespace RFS

/-- Binary-safe byte strings (file contents, names, raw paths). -/
abbrev Bytes := List Nat

/-- Directory-entry names are byte strings. -/
abbrev Name := List Nat

/-- Modelled from the spec: the error taxonomy of §7. -/
inductive Err where
  | notFound
  | notAFile
  | notADirectory
  | notASymlink
  | alreadyExists
  | notEmpty
  | invalidPath
  | invalidArgument
  | depthExceeded
  | symlinkLoop
deriving DecidableEq, Repr

/-- Modelled from the spec: an inode of the volume tree (§3).  Directory
entries are an association list name ↦ child (exactly one per name);
symlink targets are stored verbatim as raw byte strings. -/
inductive Node where
  | file (content : Bytes)
  | dir (entries : List (Name × Node))
  | symlink (target : Bytes)

/-- A volume state: `none` when the Redis key is absent (§3 lifecycle). -/
abbrev State := Option Node

/-- The root a mutating command operates on: auto-created empty root for an
absent key (spec §3, auto-create). -/
def rootOf : State → Node
  | none => .dir []
  | some n => n

/-- Look a name up in a directory's entry list. -/
def lookupEntry : List (Name × Node) → Name → Option Node
  | [], _ => none
  | (n, v) :: rest, name => if n = name then some v else lookupEntry rest name

/-- Insert or replace the entry for `name`. -/
def setEntry : List (Name × Node) → Name → Node → List (Name × Node)
  | [], name, v => [(name, v)]
  | (n, w) :: rest, name, v =>
    if n = name then (name, v) :: rest else (n, w) :: setEntry rest name v

/-- Remove the entry for `name` (entry names are unique). -/
def removeEntry : List (Name × Node) → Name → List (Name × Node)
  | [], _ => []
  | (n, w) :: rest, name =>
    if n = name then rest else (n, w) :: removeEntry rest name

/-! ## Path normalisation (spec §4.1) -/

/-- Split a raw byte string at every `/` (byte 47). -/
def splitSlash : Bytes → Name → List Name
  | [], cur => [cur]
  | b :: bs, cur => if b = 47 then cur :: splitSlash bs [] else splitSlash bs (cur ++ [b])

/-- One step of lexical normalisation: drop empty components (collapsed
slashes and the trailing slash), drop `.`, resolve `..` against the
accumulated path (`..` at root stays at root). -/
def lexStep (acc : List Name) (c : Name) : List Name :=
  if c = [] then acc
  else if c = [46] then acc
  else if c = [46, 46] then acc.dropLast
  else acc ++ [c]

/-- Lexical normalisation of a component list against a base path. -/
def lexNorm (base : List Name) (cs : List Name) : List Name :=
  cs.foldl lexStep base

/-- Normalise an absolute raw path into its component list; `none` for a
relative path (commands accept only absolute paths, spec §4.1). -/
def normPath (raw : Bytes) : Option (List Name) :=
  match raw with
  | 47 :: rest => some (lexNorm [] (splitSlash rest []))
  | _ => none

/-- Spec §3: at most 256 components in any path argument after
normalisation. -/
def maxPathDepth : Nat := 256

/-- Normalise a command's path argument and enforce the depth limit; the
check happens before the command touches the tree (spec §4.5). -/
def checkPath (raw : Bytes) : Except Err (List Name) :=
  match normPath raw with
  | none => .error .invalidPath
  | some comps =>
    if maxPathDepth < comps.length then .error .depthExceeded else .ok comps

/-! ## Path resolution (spec §4.2) -/

/-- Normalise a symlink's stored target: absolute targets restart at root,
relative targets are resolved against the directory containing the
symlink (spec §4.1 last rule, §4.2). -/
def resolveTarget (parent : List Name) (target : Bytes) : List Name :=
  match target with
  | 47 :: rest => lexNorm [] (splitSlash rest [])
  | t => lexNorm parent (splitSlash t [])

/-- Outcome of one walk from the root: the inode, a rewritten path after a
symlink substitution, or an error. -/
inductive WalkOut where
  | found (n : Node)
  | redirect (p : List Name)
  | fail (e : Err)

/-- Walk components from a node; `pre` is the already-walked prefix (used to
resolve relative symlink targets).  A symlink met on the way (or at the
terminal when `follow` is set) rewrites the path and restarts the walk
(spec §4.2). -/
def walk (follow : Bool) : Node → List Name → List Name → WalkOut
  | node, _, [] => .found node
  | node, pre, name :: rest =>
    match node with
    | .dir es =>
      match lookupEntry es name with
      | none => .fail .notFound
      | some child =>
        match child with
        | .symlink t =>
          if rest.isEmpty && !follow then .found child
          else .redirect (resolveTarget pre t ++ rest)
        | _ => walk follow child (pre ++ [name]) rest
    | _ => .fail .notADirectory

/-- Spec §3: symlink chain limit of 40 hops; the 40th substitution in one
resolution fails (39 hops resolve, spec §8 boundary behaviours). -/
def maxSymlinkHops : Nat := 40

/-- Resolution loop: restart the walk after each symlink substitution,
spending one unit of fuel per hop; exhausted fuel is a symlink loop. -/
def resolveFuel (root : Node) (follow : Bool) : Nat → List Name → Except Err Node
  | 0, comps =>
    match walk follow root [] comps with
    | .found n => .ok n
    | .fail e => .error e
    | .redirect _ => .error .symlinkLoop
  | fuel + 1, comps =>
    match walk follow root [] comps with
    | .found n => .ok n
    | .fail e => .error e
    | .redirect p => resolveFuel root follow fuel p

/-- Resolve a normalised path from the root, allowing at most 39 symlink
hops. -/
def resolvePath (root : Node) (follow : Bool) (comps : List Name) : Except Err Node :=
  resolveFuel root follow (maxSymlinkHops - 1) comps

/-! ## Line machinery (spec §2.11, §4.3 line operations)

Lines are `\n`-terminated byte runs; a final run without a terminating
`\n` counts as a (partial) last line.  `linesOf` is the specification-side
view (each line carries its terminating newline, if any); the commands are
implemented with byte-level scans (`takeLines`, `dropLines`, `wcLines`,
`wcWordsGo`) the way the module's C code would work, and the two views are
related by theorems below. -/

/-- Split a byte string into its lines; every line except possibly the last
ends with byte 10. -/
def linesOf : Bytes → List Bytes
  | [] => []
  | c :: rest =>
    if c = 10 then [10] :: linesOf rest
    else
      match linesOf rest with
      | [] => [[c]]
      | l :: ls => (c :: l) :: ls

/-- Byte-level scan: the prefix consisting of the first `k` lines. -/
def takeLines : Nat → Bytes → Bytes
  | 0, _ => []
  | _ + 1, [] => []
  | k + 1, c :: rest =>
    if c = 10 then 10 :: takeLines k rest else c :: takeLines (k + 1) rest

/-- Byte-level scan: the suffix after the first `k` lines. -/
def dropLines : Nat → Bytes → Bytes
  | 0, b => b
  | _ + 1, [] => []
  | k + 1, c :: rest =>
    if c = 10 then dropLines k rest else dropLines (k + 1) rest

/-- Byte-level line counter: number of newline bytes, plus one for a final
byte run not terminated by a newline. -/
def wcLines (b : Bytes) : Nat :=
  b.count 10 + (if b.getLast? = some 10 ∨ b = [] then 0 else 1)

/-- ASCII whitespace for `FS.WC` word tokenisation (spec §9 open questions:
defaults to ASCII). -/
def isWs (c : Nat) : Bool :=
  c = 32 || c = 9 || c = 10 || c = 13 || c = 11 || c = 12

/-- Byte-level word counter: scan with an in-word flag. -/
def wcWordsGo : Bytes → Bool → Nat
  | [], _ => 0
  | c :: rest, inw =>
    if isWs c then wcWordsGo rest false
    else (if inw then 0 else 1) + wcWordsGo rest true

/-- `FS.WC` word count as the module computes it. -/
def wcWords (b : Bytes) : Nat := wcWordsGo b false

/-- Specification-side split at whitespace bytes (auxiliary accumulator). -/
def splitWsAux : Bytes → Bytes → List Bytes
  | [], cur => [cur]
  | c :: rest, cur =>
    if isWs c then cur :: splitWsAux rest [] else splitWsAux rest (cur ++ [c])

/-- Specification-side word count: the number of maximal
whitespace-separated runs. -/
def wordRuns (b : Bytes) : Nat :=
  ((splitWsAux b []).filter (fun w => !w.isEmpty)).length

/-- `FS.INSERT` content placement (spec §4.3): `after = 0` prepends,
`after = -1` or `after ≥ line count` appends after a newline separator,
otherwise the content becomes new lines after line `after`; an absent file
is created holding exactly the content. -/
def insertContent (after : Int) (content : Bytes) : Option Bytes → Bytes
  | none => content
  | some b =>
    if after = -1 ∨ (wcLines b : Int) ≤ after then
      if b.isEmpty then content
      else if b.getLast? = some 10 then b ++ content
      else b ++ 10 :: content
    else
      takeLines after.toNat b ++ content ++ 10 :: dropLines after.toNat b

/-! ## `FS.REPLACE` machinery (spec §4.3 editing) -/

/-- 1-indexed line number of byte position `j` of `b`. -/
def lineNoAt (b : Bytes) (j : Nat) : Nat := 1 + (b.take j).count 10

/-- Does a match of `old` starting at byte `i` of `b` lie entirely within
the `LINE start end` band?  (No band: always.) -/
def bandOk (band : Option (Int × Int)) (b old : Bytes) (i : Nat) : Bool :=
  match band with
  | none => true
  | some (lo, hi) =>
    decide ((lo ≤ (lineNoAt b i : Int)) ∧ ((lineNoAt b (i + old.length - 1) : Int) ≤ hi))

/-- Specification-side occurrence predicate: `old` occurs at byte position
`i` of `b` and the match lies within the line band. -/
def matchOk (b old : Bytes) (band : Option (Int × Int)) (i : Nat) : Bool :=
  old.isPrefixOf (b.drop i) && bandOk band b old i

/-- Scan the suffix `rem` (which sits at absolute position `i` of the file)
for occurrences of `old` that satisfy `band`; collect the leftmost,
non-overlapping occurrence positions — just the first one unless `all`. -/
def occScan (old : Bytes) (band : Nat → Bool) (all : Bool) : Bytes → Nat → List Nat
  | [], _ => []
  | c :: tail, i =>
    if old.isPrefixOf (c :: tail) && band i then
      if all then i :: occScan old band all (tail.drop (old.length - 1)) (i + old.length)
      else [i]
    else occScan old band all tail (i + 1)
termination_by rem _ => rem.length
decreasing_by
  · simp only [List.length_cons, List.length_drop]
    omega
  · simp

/-- Splice `new` over every collected occurrence; `rem` is the suffix of the
file starting at absolute position `pos`, and the occurrence list is
ascending with gaps of at least `len`. -/
def spliceGo (len : Nat) (new : Bytes) : Bytes → Nat → List Nat → Bytes
  | rem, _, [] => rem
  | rem, pos, i :: rest =>
    rem.take (i - pos) ++ new ++ spliceGo len new (rem.drop (i - pos + len)) (i + len) rest

/-- `FS.REPLACE` on a file's content: returns the new content and the
number of replacements. -/
def replaceBytes (b old new : Bytes) (all : Bool) (band : Option (Int × Int)) :
    Bytes × Int :=
  let occs := occScan old (bandOk band b old) all b 0
  (spliceGo old.length new b 0 occs, (occs.length : Int))

/-- `FS.DELETELINES` on a file's content for validated `1 ≤ start ≤ stop`:
returns the new content and the number of lines actually deleted
(`start` past the end deletes nothing, `stop` is clamped; a deleted final
line keeps the newline that terminated the previous retained line, since a
line's terminator travels with the line). -/
def deleteLinesBytes (start stop : Nat) (b : Bytes) : Bytes × Int :=
  let n := wcLines b
  (takeLines (start - 1) b ++ dropLines stop b,
    ((min stop n - min (start - 1) n : Nat) : Int))

/-! ## Tree operations

The write-side walkers do not follow symlinks: an intermediate symlink or
file fails with not-a-directory, a terminal symlink where a file is
required fails with not-a-file (the spec fixes the follow modes only for
the read commands, §4.2; the write side is modelled without following). -/

/-- Read a file's content along a normalised path, without following
symlinks; errors follow spec §7 (missing component ⇒ not-found, file or
symlink in the middle ⇒ not-a-directory, directory or symlink at the
end ⇒ not-a-file, empty path ⇒ invalid-path). -/
def fileAt : Node → List Name → Except Err Bytes
  | _, [] => .error .invalidPath
  | .file _, _ :: _ => .error .notADirectory
  | .symlink _, _ :: _ => .error .notADirectory
  | .dir es, name :: rest =>
    match rest with
    | [] =>
      match lookupEntry es name with
      | none => .error .notFound
      | some (.file b) => .ok b
      | some (.dir _) => .error .notAFile
      | some (.symlink _) => .error .notAFile
    | _ :: _ =>
      match lookupEntry es name with
      | none => .error .notFound
      | some (.file _) => .error .notADirectory
      | some (.symlink _) => .error .notADirectory
      | some (.dir es') => fileAt (.dir es') rest

/-- Apply `f` to the file at a normalised path, returning the rewritten
tree and `f`'s integer result.  When `create` is set, missing parent
directories are auto-created and a missing terminal file is created from
`f none` (spec §4.3, writing commands); otherwise a missing component is
not-found. -/
def updateFile (f : Option Bytes → Except Err (Bytes × Int)) (create : Bool) :
    Node → List Name → Except Err (Node × Int)
  | _, [] => .error .invalidPath
  | .file _, _ :: _ => .error .notADirectory
  | .symlink _, _ :: _ => .error .notADirectory
  | .dir es, name :: rest =>
    match rest with
    | [] =>
      match lookupEntry es name with
      | none =>
        if create then
          match f none with
          | .error e => .error e
          | .ok (c, r) => .ok (.dir (setEntry es name (.file c)), r)
        else .error .notFound
      | some (.file b) =>
        match f (some b) with
        | .error e => .error e
        | .ok (c, r) => .ok (.dir (setEntry es name (.file c)), r)
      | some (.dir _) => .error .notAFile
      | some (.symlink _) => .error .notAFile
    | _ :: _ =>
      match lookupEntry es name with
      | none =>
        if create then
          match updateFile f create (.dir []) rest with
          | .error e => .error e
          | .ok (child, r) => .ok (.dir (setEntry es name child), r)
        else .error .notFound
      | some (.file _) => .error .notADirectory
      | some (.symlink _) => .error .notADirectory
      | some (.dir es') =>
        match updateFile f create (.dir es') rest with
        | .error e => .error e
        | .ok (child, r) => .ok (.dir (setEntry es name child), r)

/-- `FS.MKDIR` walker (spec §4.3): without `PARENTS` a missing parent is
not-found and an existing target is exists; with `PARENTS` missing
ancestors are created and an existing directory is kept (idempotent);
collision with a non-directory is not-a-directory. -/
def mkdirAt (parents : Bool) : Node → List Name → Except Err Node
  | _, [] => .error .alreadyExists
  | .file _, _ :: _ => .error .notADirectory
  | .symlink _, _ :: _ => .error .notADirectory
  | .dir es, name :: rest =>
    match rest with
    | [] =>
      match lookupEntry es name with
      | none => .ok (.dir (setEntry es name (.dir [])))
      | some (.dir _) =>
        if parents then .ok (.dir es) else .error .alreadyExists
      | some _ =>
        if parents then .error .notADirectory else .error .alreadyExists
    | _ :: _ =>
      match lookupEntry es name with
      | none =>
        if parents then
          match mkdirAt parents (.dir []) rest with
          | .error e => .error e
          | .ok child => .ok (.dir (setEntry es name child))
        else .error .notFound
      | some (.dir es') =>
        match mkdirAt parents (.dir es') rest with
        | .error e => .error e
        | .ok child => .ok (.dir (setEntry es name child))
      | some _ => .error .notADirectory

/-- `FS.RM` walker (spec §4.3): returns the rewritten tree and whether an
inode was removed (`false` when the path is absent, giving reply 0); a
non-empty directory needs `RECURSIVE`, removing `/` is invalid-path. -/
def removeAt (recursive : Bool) : Node → List Name → Except Err (Node × Bool)
  | _, [] => .error .invalidPath
  | .file _, _ :: _ => .error .notADirectory
  | .symlink _, _ :: _ => .error .notADirectory
  | .dir es, name :: rest =>
    match rest with
    | [] =>
      match lookupEntry es name with
      | none => .ok (.dir es, false)
      | some (.dir (_ :: _)) =>
        if recursive then .ok (.dir (removeEntry es name), true) else .error .notEmpty
      | some _ => .ok (.dir (removeEntry es name), true)
    | _ :: _ =>
      match lookupEntry es name with
      | none => .ok (.dir es, false)
      | some (.dir es') =>
        match removeAt recursive (.dir es') rest with
        | .error e => .error e
        | .ok (child, b) => .ok (.dir (setEntry es name child), b)
      | some _ => .ok (.dir es, false)

/-- Detach the inode at a normalised path for `FS.MV`: returns the tree
without it together with the detached subtree. -/
def detachAt : Node → List Name → Except Err (Node × Node)
  | _, [] => .error .invalidPath
  | .file _, _ :: _ => .error .notADirectory
  | .symlink _, _ :: _ => .error .notADirectory
  | .dir es, name :: rest =>
    match rest with
    | [] =>
      match lookupEntry es name with
      | none => .error .notFound
      | some v => .ok (.dir (removeEntry es name), v)
    | _ :: _ =>
      match lookupEntry es name with
      | none => .error .notFound
      | some (.dir es') =>
        match detachAt (.dir es') rest with
        | .error e => .error e
        | .ok (child, v) => .ok (.dir (setEntry es name child), v)
      | some _ => .error .notADirectory

/-- Attach a node at a normalised path (`FS.MV` target side, `FS.LN` link
path): the parent must exist as a directory and the terminal name must be
free (spec §4.3: existing destination ⇒ exists). -/
def insertNodeAt (v : Node) : Node → List Name → Except Err Node
  | _, [] => .error .alreadyExists
  | .file _, _ :: _ => .error .notADirectory
  | .symlink _, _ :: _ => .error .notADirectory
  | .dir es, name :: rest =>
    match rest with
    | [] =>
      match lookupEntry es name with
      | none => .ok (.dir (setEntry es name v))
      | some _ => .error .alreadyExists
    | _ :: _ =>
      match lookupEntry es name with
      | none => .error .notFound
      | some (.dir es') =>
        match insertNodeAt v (.dir es') rest with
        | .error e => .error e
        | .ok child => .ok (.dir (setEntry es name child))
      | some _ => .error .notADirectory

/-- Key auto-delete (spec §3 lifecycle): a volume containing only the empty
root directory deletes the key. -/
def collapse : Node → State
  | .dir [] => none
  | n => some n

/-! ## Command surface (spec §4.3) -/

/-- The modelled `FS.*` commands; every path argument is a raw byte string
as sent on the wire. -/
inductive Cmd where
  | echo (path : Bytes) (content : Bytes)
  | touch (path : Bytes)
  | mkdir (path : Bytes) (parents : Bool)
  | insert (path : Bytes) (afterLine : Int) (content : Bytes)
  | deleteLines (path : Bytes) (start stop : Int)
  | replace (path : Bytes) (old new : Bytes) (all : Bool) (band : Option (Int × Int))
  | rm (path : Bytes) (recursive : Bool)
  | mv (src dst : Bytes)
  | ln (target linkPath : Bytes)
  | cat (path : Bytes)
  | wc (path : Bytes)
  | testPath (path : Bytes)

/-- Command replies (spec §6 reply shapes); `FS.WC`'s flat
`[lines, N, words, N, chars, N]` map is captured as a triple. -/
inductive Reply where
  | ok
  | int (n : Int)
  | bulk (b : Bytes)
  | nil
  | wcTriple (lines words chars : Nat)
  | err (e : Err)
deriving DecidableEq, Repr

/-- `FS.CAT`'s reply (spec §4.3): follows the terminal symlink; nil for an
absent key, an unresolved path or a dangling chain; not-a-file for a
directory. -/
def catReply (s : State) (comps : List Name) : Except Err Reply :=
  match s with
  | none => .ok .nil
  | some root =>
    match resolvePath root true comps with
    | .ok (.file b) => .ok (.bulk b)
    | .ok (.dir _) => .error .notAFile
    | .ok (.symlink _) => .error .notAFile
    | .error .notFound => .ok .nil
    | .error e => .error e

/-- `FS.WC`'s reply (spec §4.3): lines, words and byte count of the file;
nil for absent, not-a-file for a directory. -/
def wcReply (s : State) (comps : List Name) : Except Err Reply :=
  match s with
  | none => .ok .nil
  | some root =>
    match resolvePath root true comps with
    | .ok (.file b) => .ok (.wcTriple (wcLines b) (wcWords b) b.length)
    | .ok (.dir _) => .error .notAFile
    | .ok (.symlink _) => .error .notAFile
    | .error .notFound => .ok .nil
    | .error e => .error e

/-- `FS.TEST`'s reply (spec §4.3): 1 when the path resolves without
following the terminal symlink, else 0. -/
def testReply (s : State) (comps : List Name) : Except Err Reply :=
  match s with
  | none => .ok (.int 0)
  | some root =>
    match resolvePath root false comps with
    | .ok _ => .ok (.int 1)
    | .error _ => .ok (.int 0)

/-- One command against one volume, as an error-carrying computation; an
error leaves the volume untouched (spec §4.5: failures are atomic). -/
def execE (s : State) : Cmd → Except Err (State × Reply)
  | .echo path content =>
    match checkPath path with
    | .error e => .error e
    | .ok comps =>
      match updateFile (fun _ => .ok (content, 0)) true (rootOf s) comps with
      | .error e => .error e
      | .ok (root', _) => .ok (some root', .ok)
  | .touch path =>
    match checkPath path with
    | .error e => .error e
    | .ok comps =>
      match updateFile (fun ob => .ok (ob.getD [], 0)) true (rootOf s) comps with
      | .error e => .error e
      | .ok (root', _) => .ok (some root', .ok)
  | .mkdir path parents =>
    match checkPath path with
    | .error e => .error e
    | .ok comps =>
      match mkdirAt parents (rootOf s) comps with
      | .error e => .error e
      | .ok root' => .ok (some root', .ok)
  | .insert path afterLine content =>
    match checkPath path with
    | .error e => .error e
    | .ok comps =>
      if afterLine < -1 then .error .invalidArgument
      else
        match updateFile (fun ob => .ok (insertContent afterLine content ob, 0)) true
            (rootOf s) comps with
        | .error e => .error e
        | .ok (root', _) => .ok (some root', .ok)
  | .deleteLines path start stop =>
    match checkPath path with
    | .error e => .error e
    | .ok comps =>
      if start < 1 ∨ stop < start then .error .invalidArgument
      else
        match updateFile (fun ob =>
            match ob with
            | none => .error .notFound
            | some b => .ok (deleteLinesBytes start.toNat stop.toNat b)) false
            (rootOf s) comps with
        | .error .notFound => .ok (s, .nil)
        | .error e => .error e
        | .ok (root', r) => .ok (some root', .int r)
  | .replace path old new all band =>
    match checkPath path with
    | .error e => .error e
    | .ok comps =>
      if old.isEmpty then .error .invalidArgument
      else
        match updateFile (fun ob =>
            match ob with
            | none => .error .notFound
            | some b => .ok (replaceBytes b old new all band)) false
            (rootOf s) comps with
        | .error .notFound => .ok (s, .nil)
        | .error e => .error e
        | .ok (root', r) => .ok (some root', .int r)
  | .rm path recursive =>
    match checkPath path with
    | .error e => .error e
    | .ok comps =>
      match removeAt recursive (rootOf s) comps with
      | .error e => .error e
      | .ok (root', removed) =>
        .ok (collapse root', .int (if removed then 1 else 0))
  | .mv src dst =>
    match checkPath src with
    | .error e => .error e
    | .ok sc =>
      match checkPath dst with
      | .error e => .error e
      | .ok dc =>
        if sc.isEmpty then .error .invalidPath
        else if sc.isPrefixOf dc && !(decide (sc = dc)) then .error .invalidArgument
        else
          match detachAt (rootOf s) sc with
          | .error e => .error e
          | .ok (tree', v) =>
            match insertNodeAt v tree' dc with
            | .error e => .error e
            | .ok tree'' => .ok (collapse tree'', .ok)
  | .ln target linkPath =>
    match checkPath linkPath with
    | .error e => .error e
    | .ok comps =>
      match insertNodeAt (.symlink target) (rootOf s) comps with
      | .error e => .error e
      | .ok root' => .ok (some root', .ok)
  | .cat path =>
    match checkPath path with
    | .error e => .error e
    | .ok comps =>
      match catReply s comps with
      | .error e => .error e
      | .ok rep => .ok (s, rep)
  | .wc path =>
    match checkPath path with
    | .error e => .error e
    | .ok comps =>
      match wcReply s comps with
      | .error e => .error e
      | .ok rep => .ok (s, rep)
  | .testPath path =>
    match checkPath path with
    | .error e => .error e
    | .ok comps =>
      match testReply s comps with
      | .error e => .error e
      | .ok rep => .ok (s, rep)

/-- Execute one command: on error the volume is unchanged and the error is
the reply (spec §4.5: each command either completes or reports an error
and leaves the volume unchanged). -/
def exec (s : State) (c : Cmd) : State × Reply :=
  match execE s c with
  | .ok r => r
  | .error e => (s, .err e)

/-- The key-lifecycle invariant (spec §3): the key never holds a volume
whose root is an empty directory (such a volume auto-deletes), and the
root is always a directory. -/
def goodState : State → Bool
  | none => true
  | some (.dir (_ :: _)) => true
  | some _ => false

/-- Does the normalised path resolve (without following a terminal symlink)
to a directory? -/
def isDirAt (s : State) (comps : List Name) : Bool :=
  match s with
  | none => false
  | some root =>
    match resolvePath root false comps with
    | .ok (.dir _) => true
    | _ => false

/-! ## Symlink-chain scenario (spec §8 boundary behaviours, claim C4)

A root directory holding one file `t` and a chain of symlinks
`l₀ → /t`, `l₁ → /l₀`, …; the name of link `j` is the byte 108 repeated
`j + 1` times, so the names are pairwise distinct by length. -/

/-- Name of the chain's target file. -/
def tName : Name := [116]

/-- Content of the chain's target file. -/
def chainContent : Bytes := [114]

/-- Name of the `j`-th link of the chain. -/
def linkName (j : Nat) : Name := List.replicate (j + 1) 108

/-- Stored target of the `j`-th link: `/t` for `j = 0`, else the previous
link. -/
def linkTarget : Nat → Bytes
  | 0 => 47 :: tName
  | j + 1 => 47 :: linkName j

/-- Entries of a root directory holding the target file and `n` chained
symlinks. -/
def chainEntries : Nat → List (Name × Node)
  | 0 => [(tName, .file chainContent)]
  | j + 1 => chainEntries j ++ [(linkName j, .symlink (linkTarget j))]

/-- The volume holding an `n`-link symlink chain. -/
def chainState (n : Nat) : State := some (.dir (chainEntries n))

/-! ## The Python client's error translation
(`src/redis_fs/client.py`, `RedisFS._execute`) -/

/-- What a call through `RedisFS._execute` does from Python's point of
view: return a value (or `None`), or raise. -/
inductive PyOutcome where
  | retNone
  | retValue (v : Bytes)
  | raiseNotAFile (msg : List Char)
  | raiseNotADirectory (msg : List Char)
  | raiseSymlinkLoop (msg : List Char)
  | reraise (msg : List Char)
deriving DecidableEq

/-- Python's substring containment (`pat in hay`). -/
def containsSub (pat : List Char) : List Char → Bool
  | [] => pat.isEmpty
  | c :: rest => pat.isPrefixOf (c :: rest) || containsSub pat rest

/-- `RedisFS._execute`: forward the module reply; translate a response
error by lowercased message substring, in the source's order — "no such
filesystem" / "not found" become `None`, then "not a file",
"not a directory", "symbolic links" raise the dedicated exceptions, and
anything else re-raises the original error. -/
def pyExecute (resp : Except (List Char) Bytes) : PyOutcome :=
  match resp with
  | .ok v => .retValue v
  | .error msg =>
    let low := msg.map Char.toLower
    if containsSub ("no such filesystem".toList) low || containsSub ("not found".toList) low then
      .retNone
    else if containsSub ("not a file".toList) low then .raiseNotAFile msg
    else if containsSub ("not a directory".toList) low then .raiseNotADirectory msg
    else if containsSub ("symbolic links".toList) low then .raiseSymlinkLoop msg
    else .reraise msg

/-! ## Basic lemmas: entries -/

theorem setEntry_ne_nil (es : List (Name × Node)) (n : Name) (v : Node) :
    setEntry es n v ≠ [] := by
  cases es with
  | nil => simp [setEntry]
  | cons e rest =>
    obtain ⟨m, w⟩ := e
    by_cases h : m = n <;> simp [setEntry, h]

theorem lookup_setEntry_self (es : List (Name × Node)) (n : Name) (v : Node) :
    lookupEntry (setEntry es n v) n = some v := by
  induction es with
  | nil => simp [setEntry, lookupEntry]
  | cons e rest ih =>
    obtain ⟨m, w⟩ := e
    by_cases h : m = n
    · simp [setEntry, h, lookupEntry]
    · simp [setEntry, h, lookupEntry, ih]

theorem lookup_append (es fs : List (Name × Node)) (n : Name) :
    lookupEntry (es ++ fs) n =
      (match lookupEntry es n with
       | some v => some v
       | none => lookupEntry fs n) := by
  induction es with
  | nil => simp [lookupEntry]
  | cons e rest ih =>
    obtain ⟨m, w⟩ := e
    by_cases h : m = n <;> simp [lookupEntry, h, ih]

/-! ## Basic lemmas: lines -/

theorem flatten_linesOf (b : Bytes) : (linesOf b).flatten = b := by
  induction b with
  | nil => simp [linesOf]
  | cons c rest ih =>
    by_cases hc : c = 10
    · simp [linesOf, hc] at ih ⊢
      exact ih
    · simp only [linesOf, hc, if_false]
      cases h : linesOf rest with
      | nil =>
        rw [h] at ih
        simp at ih
        simp [← ih]
      | cons l ls =>
        rw [h] at ih
        simp at ih ⊢
        simpa using ih

theorem linesOf_eq_nil_iff (b : Bytes) : linesOf b = [] ↔ b = [] := by
  constructor
  · intro h
    have := flatten_linesOf b
    rw [h] at this
    simpa using this.symm
  · intro h
    simp [h, linesOf]

theorem takeLines_eq (k : Nat) (b : Bytes) :
    takeLines k b = ((linesOf b).take k).flatten := by
  induction b generalizing k with
  | nil => cases k <;> simp [takeLines, linesOf]
  | cons c rest ih =>
    cases k with
    | zero => simp [takeLines]
    | succ k =>
      by_cases hc : c = 10
      · subst hc
        simp [takeLines, linesOf, ih]
      · simp only [takeLines, hc, if_false, linesOf]
        cases h : linesOf rest with
        | nil =>
          have hr : rest = [] := (linesOf_eq_nil_iff rest).mp h
          subst hr
          cases k <;> simp [takeLines]
        | cons l ls =>
          rw [ih (k + 1), h]
          simp

theorem dropLines_eq (k : Nat) (b : Bytes) :
    dropLines k b = ((linesOf b).drop k).flatten := by
  induction b generalizing k with
  | nil => cases k <;> simp [dropLines, linesOf]
  | cons c rest ih =>
    cases k with
    | zero => simp [dropLines, flatten_linesOf]
    | succ k =>
      by_cases hc : c = 10
      · subst hc
        simp [dropLines, linesOf, ih]
      · simp only [dropLines, hc, if_false, linesOf]
        cases h : linesOf rest with
        | nil =>
          have hr : rest = [] := (linesOf_eq_nil_iff rest).mp h
          subst hr
          cases k <;> simp [dropLines]
        | cons l ls =>
          rw [ih (k + 1), h]
          simp

theorem wcLines_eq (b : Bytes) : wcLines b = (linesOf b).length := by
  induction b with
  | nil => simp [wcLines, linesOf]
  | cons c rest ih =>
    by_cases hc : c = 10
    · subst hc
      cases hr : rest with
      | nil => simp [wcLines, linesOf]
      | cons d tail =>
        rw [← hr]
        have hlines : linesOf (10 :: rest) = [10] :: linesOf rest := by simp [linesOf]
        have hlast : (10 :: rest).getLast? = rest.getLast? := by
          rw [hr]
          simp [List.getLast?_cons_cons]
        have hne : rest ≠ [] := by simp [hr]
        rw [hlines]
        simp only [List.length_cons, ← ih]
        by_cases hg : rest.getLast? = some 10 <;>
          simp [wcLines, hlast, List.count_cons, hne, hg] <;> omega
    · cases h : linesOf rest with
      | nil =>
        have hr : rest = [] := (linesOf_eq_nil_iff rest).mp h
        subst hr
        simp [wcLines, linesOf, hc, List.count_cons]
      | cons l ls =>
        have hr : rest ≠ [] := by
          intro hx
          rw [hx] at h
          simp [linesOf] at h
        have hlast : (c :: rest).getLast? = rest.getLast? := by
          cases rest with
          | nil => exact absurd rfl hr
          | cons d tail => simp [List.getLast?_cons_cons]
        simp only [linesOf, hc, if_false, h, List.length_cons]
        rw [h] at ih
        simp only [List.length_cons] at ih
        rw [← ih]
        simp only [wcLines, hlast, List.count_cons]
        simp [hc, hr]

theorem wordRuns_go (b : Bytes) (cur : Bytes) :
    ((splitWsAux b cur).filter (fun w => !w.isEmpty)).length =
      (if cur.isEmpty then 0 else 1) + wcWordsGo b (!cur.isEmpty) := by
  induction b generalizing cur with
  | nil =>
    by_cases h : cur.isEmpty <;> simp [splitWsAux, wcWordsGo, h]
  | cons c rest ih =>
    by_cases hc : isWs c
    · by_cases h : cur.isEmpty <;>
        simp [splitWsAux, wcWordsGo, hc, h, ih, List.filter] <;> omega
    · have hne : ¬(cur ++ [c]).isEmpty := by simp
      by_cases h : cur.isEmpty <;>
        simp [splitWsAux, wcWordsGo, hc, h, ih (cur ++ [c]), hne] <;> omega

theorem wcWords_eq (b : Bytes) : wcWords b = wordRuns b := by
  have h := wordRuns_go b []
  simp at h
  simp [wcWords, wordRuns, h]

/-! ## Symlink-chain lemmas (for C4) -/

theorem linkName_inj {i j : Nat} (h : linkName i = linkName j) : i = j := by
  have := congrArg List.length h
  simpa [linkName] using this

theorem tName_ne_linkName (j : Nat) : tName ≠ linkName j := by
  intro h
  have h116 : (116 : Nat) ∈ linkName j := by
    rw [← h]
    simp [tName]
  simp only [linkName] at h116
  have := List.eq_of_mem_replicate h116
  omega

theorem lookup_chain_absent (n j : Nat) (h : n ≤ j) :
    lookupEntry (chainEntries n) (linkName j) = none := by
  induction n with
  | zero => simp [chainEntries, lookupEntry, tName_ne_linkName j]
  | succ m ih =>
    rw [chainEntries, lookup_append, ih (by omega)]
    have hne : linkName m ≠ linkName j := fun hx => by
      have := linkName_inj hx
      omega
    simp [lookupEntry, hne]

theorem lookup_chain_tName (n : Nat) :
    lookupEntry (chainEntries n) tName = some (.file chainContent) := by
  induction n with
  | zero => simp [chainEntries, lookupEntry]
  | succ m ih => rw [chainEntries, lookup_append, ih]

theorem lookup_chain_link (n j : Nat) (h : j < n) :
    lookupEntry (chainEntries n) (linkName j) = some (.symlink (linkTarget j)) := by
  induction n with
  | zero => omega
  | succ m ih =>
    rcases Nat.lt_or_ge j m with hj | hj
    · rw [chainEntries, lookup_append, ih hj]
    · have hjm : j = m := by omega
      subst hjm
      rw [chainEntries, lookup_append, lookup_chain_absent j j le_rfl]
      simp [lookupEntry]

theorem splitSlash_no47 (bs cur : Bytes) (h : ∀ c ∈ bs, c ≠ 47) :
    splitSlash bs cur = [cur ++ bs] := by
  induction bs generalizing cur with
  | nil => simp [splitSlash]
  | cons b rest ih =>
    have hb : b ≠ 47 := h b (by simp)
    rw [splitSlash, if_neg hb, ih (cur ++ [b]) (fun c hc => h c (by simp [hc]))]
    simp

/-- A plain name (nonempty, slash-free, not a dot component) normalises to
the single component it is. -/
theorem lexNorm_single (base : List Name) (nm : Name) (h47 : ∀ c ∈ nm, c ≠ 47)
    (hne : nm ≠ []) (hd1 : nm ≠ [46]) (hd2 : nm ≠ [46, 46]) :
    lexNorm base (splitSlash nm []) = base ++ [nm] := by
  rw [splitSlash_no47 nm [] h47]
  simp [lexNorm, lexStep, hne, hd1, hd2]

theorem normPath_single (nm : Name) (h47 : ∀ c ∈ nm, c ≠ 47) (hne : nm ≠ [])
    (hd1 : nm ≠ [46]) (hd2 : nm ≠ [46, 46]) :
    normPath (47 :: nm) = some [nm] := by
  simp [normPath, lexNorm_single [] nm h47 hne hd1 hd2]

theorem linkName_plain (j : Nat) :
    (∀ c ∈ linkName j, c ≠ 47) ∧ linkName j ≠ [] ∧ linkName j ≠ [46] ∧
      linkName j ≠ [46, 46] := by
  refine ⟨fun c hc => ?_, by simp [linkName], fun h => ?_, fun h => ?_⟩
  · have := List.eq_of_mem_replicate hc
    omega
  · have h46 : (46 : Nat) ∈ linkName j := by rw [h]; simp
    have := List.eq_of_mem_replicate h46
    omega
  · have h46 : (46 : Nat) ∈ linkName j := by rw [h]; simp
    have := List.eq_of_mem_replicate h46
    omega

theorem tName_plain :
    (∀ c ∈ tName, c ≠ 47) ∧ tName ≠ [] ∧ tName ≠ [46] ∧ tName ≠ [46, 46] := by
  refine ⟨fun c hc => ?_, by simp [tName], by simp [tName], by simp [tName]⟩
  simp [tName] at hc
  omega

/-- The stored target of link `j` normalises to the previous chain stop. -/
theorem resolveTarget_chain (pre : List Name) (j : Nat) :
    resolveTarget pre (linkTarget j) =
      [match j with | 0 => tName | i + 1 => linkName i] := by
  cases j with
  | zero =>
    obtain ⟨h47, hne, hd1, hd2⟩ := tName_plain
    simp [linkTarget, resolveTarget, lexNorm_single [] tName h47 hne hd1 hd2]
  | succ i =>
    obtain ⟨h47, hne, hd1, hd2⟩ := linkName_plain i
    simp [linkTarget, resolveTarget, lexNorm_single [] (linkName i) h47 hne hd1 hd2]

theorem resolveFuel_found (root : Node) (follow : Bool) (fuel : Nat)
    (comps : List Name) (m : Node) (h : walk follow root [] comps = .found m) :
    resolveFuel root follow fuel comps = .ok m := by
  cases fuel <;> simp [resolveFuel, h]

theorem resolveFuel_chain (n : Nat) :
    ∀ j fuel, j < n →
      resolveFuel (.dir (chainEntries n)) true fuel [linkName j] =
        (if j < fuel then .ok (.file chainContent) else .error .symlinkLoop) := by
  intro j
  induction j with
  | zero =>
    intro fuel h
    have hw : walk true (.dir (chainEntries n)) [] [linkName 0] =
        .redirect [tName] := by
      simp [walk, lookup_chain_link n 0 h, resolveTarget_chain]
    have hw2 : walk true (.dir (chainEntries n)) [] [tName] =
        .found (.file chainContent) := by
      simp [walk, lookup_chain_tName n]
    cases fuel with
    | zero => simp [resolveFuel, hw]
    | succ f => simp [resolveFuel, hw, resolveFuel_found _ _ f _ _ hw2]
  | succ i ih =>
    intro fuel h
    have hw : walk true (.dir (chainEntries n)) [] [linkName (i + 1)] =
        .redirect [linkName i] := by
      simp [walk, lookup_chain_link n (i + 1) h, resolveTarget_chain]
    cases fuel with
    | zero => simp [resolveFuel, hw]
    | succ f =>
      rw [resolveFuel, hw]
      simp only []
      rw [ih f (by omega)]
      by_cases hf : i < f <;> simp [hf] <;> omega

theorem checkPath_single (nm : Name) (h47 : ∀ c ∈ nm, c ≠ 47) (hne : nm ≠ [])
    (hd1 : nm ≠ [46]) (hd2 : nm ≠ [46, 46]) :
    checkPath (47 :: nm) = .ok [nm] := by
  rw [checkPath, normPath_single nm h47 hne hd1 hd2]
  simp [maxPathDepth]

/-! ## Fresh-tree success lemmas (for C3) -/

/-- Any successful `updateFile` rewrites exactly one root-level entry of a
directory node. -/
theorem updateFile_ok_shape {f : Option Bytes → Except Err (Bytes × Int)}
    {create : Bool} {n n' : Node} {comps : List Name} {r : Int}
    (h : updateFile f create n comps = .ok (n', r)) :
    ∃ es name rest v, n = .dir es ∧ comps = name :: rest ∧
      n' = .dir (setEntry es name v) := by
  cases n with
  | file b => cases comps <;> simp [updateFile] at h
  | symlink t => cases comps <;> simp [updateFile] at h
  | dir es =>
    cases comps with
    | nil => simp [updateFile] at h
    | cons name rest =>
      refine ⟨es, name, rest, ?_⟩
      cases rest with
      | nil =>
        simp only [updateFile] at h
        split at h
        · split at h
          · split at h <;> simp at h
            obtain ⟨h1, h2⟩ := h
            exact ⟨_, rfl, rfl, h1.symm⟩
          · simp at h
        · split at h <;> simp at h
          obtain ⟨h1, h2⟩ := h
          exact ⟨_, rfl, rfl, h1.symm⟩
        · simp at h
        · simp at h
      | cons b t =>
        simp only [updateFile] at h
        split at h
        · split at h
          · split at h <;> simp at h
            obtain ⟨h1, h2⟩ := h
            exact ⟨_, rfl, rfl, h1.symm⟩
          · simp at h
        · simp at h
        · simp at h
        · split at h <;> simp at h
          obtain ⟨h1, h2⟩ := h
          exact ⟨_, rfl, rfl, h1.symm⟩


theorem updateFile_fresh (f : Option Bytes → Except Err (Bytes × Int)) (c : Bytes)
    (r : Int) (hf : f none = .ok (c, r)) :
    ∀ comps : List Name, comps ≠ [] →
      ∃ n', updateFile f true (.dir []) comps = .ok (n', r) ∧
        fileAt n' comps = .ok c := by
  intro comps
  induction comps with
  | nil => intro h; exact absurd rfl h
  | cons a rest ih =>
    intro _
    cases rest with
    | nil =>
      have hstep : updateFile f true (.dir []) [a] =
          (match f none with
           | .error e => .error e
           | .ok (c, r) => .ok (.dir (setEntry [] a (.file c)), r)) := rfl
      refine ⟨.dir (setEntry [] a (.file c)), by rw [hstep, hf], ?_⟩
      simp [fileAt, lookup_setEntry_self]
    | cons b t =>
      obtain ⟨n', hn', hread⟩ := ih (by simp)
      obtain ⟨es0, name0, rest0, v0, he0, -, hshape⟩ := updateFile_ok_shape hn'
      have hstep : updateFile f true (.dir []) (a :: b :: t) =
          (match updateFile f true (.dir []) (b :: t) with
           | .error e => .error e
           | .ok (child, r) => .ok (.dir (setEntry [] a child), r)) := rfl
      refine ⟨.dir (setEntry [] a n'), by rw [hstep, hn'], ?_⟩
      rw [hshape] at hread ⊢
      simp only [fileAt, lookup_setEntry_self]
      exact hread

theorem mkdirAt_fresh :
    ∀ comps : List Name, comps ≠ [] →
      ∃ n', mkdirAt true (.dir []) comps = .ok n' := by
  intro comps
  induction comps with
  | nil => intro h; exact absurd rfl h
  | cons a rest ih =>
    intro _
    cases rest with
    | nil => exact ⟨_, rfl⟩
    | cons b t =>
      obtain ⟨n', hn'⟩ := ih (by simp)
      have hstep : mkdirAt true (.dir []) (a :: b :: t) =
          (match mkdirAt true (.dir []) (b :: t) with
           | .error e => .error e
           | .ok child => .ok (.dir (setEntry [] a child))) := rfl
      exact ⟨_, by rw [hstep, hn']⟩

theorem checkPath_overlong (raw : Bytes) (comps : List Name)
    (hnorm : normPath raw = some comps) (hlen : 257 ≤ comps.length) :
    checkPath raw = .error .depthExceeded := by
  rw [checkPath, hnorm]
  have : maxPathDepth < comps.length := by
    simp only [maxPathDepth]
    omega
  simp [this]

theorem checkPath_inDepth (raw : Bytes) (comps : List Name)
    (hnorm : normPath raw = some comps) (hlen : comps.length ≤ 256) :
    checkPath raw = .ok comps := by
  rw [checkPath, hnorm]
  have : ¬(maxPathDepth < comps.length) := by
    simp only [maxPathDepth]
    omega
  simp [this]

/-! ## Write-then-read lemmas (for C1, C2) -/

/-- After a successful `FS.ECHO` write of `x` along `comps`, walking
`comps` finds the file `x` (never crossing a symlink), and walking any
proper prefix of `comps` finds a directory. -/
theorem walk_after_echo (x : Bytes) :
    ∀ (comps : List Name) (es : List (Name × Node)) (n' : Node) (r : Int),
      updateFile (fun _ => .ok (x, 0)) true (.dir es) comps = .ok (n', r) →
      (∀ fl pre, walk fl n' pre comps = .found (.file x)) ∧
      (∀ k, k < comps.length → ∀ fl pre, ∃ es2,
        walk fl n' pre (comps.take k) = .found (.dir es2)) := by
  intro comps
  induction comps with
  | nil => intro es n' r h; simp [updateFile] at h
  | cons name rest ih =>
    intro es n' r h
    cases rest with
    | nil =>
      have hn' : n' = .dir (setEntry es name (.file x)) := by
        simp only [updateFile] at h
        split at h
        · split at h <;> simp at h
          exact h.1.symm
        · simp at h
          exact h.1.symm
        · simp at h
        · simp at h
      subst hn'
      constructor
      · intro fl pre
        simp [walk, lookup_setEntry_self]
      · intro k hk fl pre
        have hk0 : k = 0 := by
          simp at hk
          omega
        subst hk0
        exact ⟨_, rfl⟩
    | cons b t =>
      have hrec : ∃ es0 child r',
          updateFile (fun _ => .ok (x, 0)) true (.dir es0) (b :: t) =
            .ok (child, r') ∧ n' = .dir (setEntry es name child) := by
        simp only [updateFile] at h
        split at h
        · split at h
          · rename_i hup
            split at h <;> simp at h
            rename_i child r' hchild
            exact ⟨[], child, r', hchild, h.1.symm⟩
          · simp at h
        · simp at h
        · simp at h
        · rename_i es' hlk
          split at h <;> simp at h
          rename_i child r' hchild
          exact ⟨es', child, r', hchild, h.1.symm⟩
      obtain ⟨es0, child, r', hchild, hn'⟩ := hrec
      subst hn'
      obtain ⟨ihw, ihp⟩ := ih es0 child r' hchild
      have hchild_dir : ∃ es2, child = .dir es2 := by
        obtain ⟨es2, h2⟩ := ihp 0 (by simp) false []
        cases child with
        | file _ => simp [walk] at h2
        | symlink _ => simp [walk] at h2
        | dir es2' => exact ⟨es2', rfl⟩
      obtain ⟨es2, hc2⟩ := hchild_dir
      subst hc2
      constructor
      · intro fl pre
        rw [walk]
        simp only [lookup_setEntry_self]
        exact ihw fl (pre ++ [name])
      · intro k hk fl pre
        cases k with
        | zero => exact ⟨_, rfl⟩
        | succ k' =>
          simp only [List.take_succ_cons]
          rw [walk]
          simp only [lookup_setEntry_self]
          exact ihp k' (by simpa using hk) fl (pre ++ [name])

/-- `checkPath` success determines the normalised components. -/
theorem checkPath_ok_norm {raw : Bytes} {comps : List Name}
    (h : checkPath raw = .ok comps) : normPath raw = some comps := by
  rw [checkPath] at h
  cases hn : normPath raw with
  | none =>
    rw [hn] at h
    exact absurd h (by simp)
  | some c =>
    rw [hn] at h
    by_cases hc : maxPathDepth < c.length
    · simp [hc] at h
    · simp [hc] at h
      rw [h]

/-! ## File read/update correspondence (for C6, C7, C8) -/

/-- Updating the file read by `fileAt` succeeds with `f`'s result on its
content, and the rewritten tree reads back `f`'s output. -/
theorem updateFile_fileAt_ok (create : Bool)
    (f : Option Bytes → Except Err (Bytes × Int))
    {b c : Bytes} {r : Int} (hf : f (some b) = .ok (c, r)) :
    ∀ {n : Node} {comps : List Name}, fileAt n comps = .ok b →
      ∃ n', updateFile f create n comps = .ok (n', r) ∧ fileAt n' comps = .ok c := by
  intro n comps
  induction comps generalizing n with
  | nil => intro h; simp [fileAt] at h
  | cons name rest ih =>
    intro h
    cases n with
    | file _ => simp [fileAt] at h
    | symlink _ => simp [fileAt] at h
    | dir es =>
      cases rest with
      | nil =>
        cases hlk : lookupEntry es name with
        | none => simp [fileAt, hlk] at h
        | some child =>
          cases child with
          | file b0 =>
            have hb : b0 = b := by
              have : fileAt (.dir es) [name] = .ok b0 := by simp [fileAt, hlk]
              rw [h] at this
              exact (Except.ok.injEq _ _ ▸ this).symm
            subst hb
            refine ⟨.dir (setEntry es name (.file c)), ?_, ?_⟩
            · have hstep : updateFile f create (.dir es) [name] =
                  (match lookupEntry es name with
                   | none =>
                     if create then
                       match f none with
                       | .error e => .error e
                       | .ok (c, r) => .ok (.dir (setEntry es name (.file c)), r)
                     else .error .notFound
                   | some (.file b) =>
                     match f (some b) with
                     | .error e => .error e
                     | .ok (c, r) => .ok (.dir (setEntry es name (.file c)), r)
                   | some (.dir _) => .error .notAFile
                   | some (.symlink _) => .error .notAFile) := rfl
              rw [hstep, hlk]
              simp [hf]
            · simp [fileAt, lookup_setEntry_self]
          | dir _ => simp [fileAt, hlk] at h
          | symlink _ => simp [fileAt, hlk] at h
      | cons b2 t =>
        cases hlk : lookupEntry es name with
        | none => simp [fileAt, hlk] at h
        | some child =>
          cases child with
          | file _ => simp [fileAt, hlk] at h
          | symlink _ => simp [fileAt, hlk] at h
          | dir es' =>
            have hrec : fileAt (.dir es') (b2 :: t) = .ok b := by
              have hstep : fileAt (.dir es) (name :: b2 :: t) =
                  (match lookupEntry es name with
                   | none => .error .notFound
                   | some (.file _) => .error .notADirectory
                   | some (.symlink _) => .error .notADirectory
                   | some (.dir es') => fileAt (.dir es') (b2 :: t)) := rfl
              rw [hstep, hlk] at h
              exact h
            obtain ⟨child', hupd, hread⟩ := ih hrec
            obtain ⟨es0, name0, rest0, v0, -, -, hshape⟩ := updateFile_ok_shape hupd
            refine ⟨.dir (setEntry es name child'), ?_, ?_⟩
            · have hstep : updateFile f create (.dir es) (name :: b2 :: t) =
                  (match lookupEntry es name with
                   | none =>
                     if create then
                       match updateFile f create (.dir []) (b2 :: t) with
                       | .error e => .error e
                       | .ok (child, r) => .ok (.dir (setEntry es name child), r)
                     else .error .notFound
                   | some (.file _) => .error .notADirectory
                   | some (.symlink _) => .error .notADirectory
                   | some (.dir es') =>
                     match updateFile f create (.dir es') (b2 :: t) with
                     | .error e => .error e
                     | .ok (child, r) => .ok (.dir (setEntry es name child), r)) := rfl
              rw [hstep, hlk]
              simp [hupd]
            · rw [hshape] at hread ⊢
              have hstep : fileAt (.dir (setEntry es name (.dir (setEntry es0 name0 v0))))
                  (name :: b2 :: t) =
                  (match lookupEntry (setEntry es name (.dir (setEntry es0 name0 v0)))
                      name with
                   | none => .error .notFound
                   | some (.file _) => .error .notADirectory
                   | some (.symlink _) => .error .notADirectory
                   | some (.dir es') => fileAt (.dir es') (b2 :: t)) := rfl
              rw [hstep, lookup_setEntry_self]
              exact hread

/-- A read error below the terminal propagates unchanged through a
non-creating `updateFile`. -/
theorem updateFile_fileAt_err {f : Option Bytes → Except Err (Bytes × Int)}
    {e : Err} :
    ∀ {n : Node} {comps : List Name}, fileAt n comps = .error e →
      updateFile f false n comps = .error e := by
  intro n comps
  induction comps generalizing n with
  | nil =>
    intro h
    simp [fileAt] at h
    cases n <;> simp [updateFile, ← h]
  | cons name rest ih =>
    intro h
    cases n with
    | file _ =>
      simp [fileAt] at h
      simp [updateFile, ← h]
    | symlink _ =>
      simp [fileAt] at h
      simp [updateFile, ← h]
    | dir es =>
      cases rest with
      | nil =>
        cases hlk : lookupEntry es name with
        | none =>
          simp [fileAt, hlk] at h
          simp [updateFile, hlk, ← h]
        | some child =>
          cases child with
          | file b0 => simp [fileAt, hlk] at h
          | dir _ =>
            simp [fileAt, hlk] at h
            simp [updateFile, hlk, ← h]
          | symlink _ =>
            simp [fileAt, hlk] at h
            simp [updateFile, hlk, ← h]
      | cons b2 t =>
        cases hlk : lookupEntry es name with
        | none =>
          simp [fileAt, hlk] at h
          simp [updateFile, hlk, ← h]
        | some child =>
          cases child with
          | file _ =>
            simp [fileAt, hlk] at h
            simp [updateFile, hlk, ← h]
          | symlink _ =>
            simp [fileAt, hlk] at h
            simp [updateFile, hlk, ← h]
          | dir es' =>
            have hstepR : fileAt (.dir es) (name :: b2 :: t) =
                fileAt (.dir es') (b2 :: t) := by
              have : fileAt (.dir es) (name :: b2 :: t) =
                  (match lookupEntry es name with
                   | none => .error .notFound
                   | some (.file _) => .error .notADirectory
                   | some (.symlink _) => .error .notADirectory
                   | some (.dir es') => fileAt (.dir es') (b2 :: t)) := rfl
              rw [this, hlk]
            rw [hstepR] at h
            have hstepU : updateFile f false (.dir es) (name :: b2 :: t) =
                (match updateFile f false (.dir es') (b2 :: t) with
                 | .error e => .error e
                 | .ok (child, r) => .ok (.dir (setEntry es name child), r)) := by
              have : updateFile f false (.dir es) (name :: b2 :: t) =
                  (match lookupEntry es name with
                   | none => .error .notFound
                   | some (.file _) => .error .notADirectory
                   | some (.symlink _) => .error .notADirectory
                   | some (.dir es') =>
                     match updateFile f false (.dir es') (b2 :: t) with
                     | .error e => .error e
                     | .ok (child, r) => .ok (.dir (setEntry es name child), r)) := rfl
              rw [this, hlk]
            rw [hstepU, ih h]

/-- Creating through a not-found path: the creating `updateFile` succeeds
with `f none` and the new tree reads back its output. -/
theorem updateFile_fileAt_create (f : Option Bytes → Except Err (Bytes × Int))
    {c : Bytes} {r : Int} (hf : f none = .ok (c, r)) :
    ∀ {n : Node} {comps : List Name}, fileAt n comps = .error .notFound →
      ∃ n', updateFile f true n comps = .ok (n', r) ∧ fileAt n' comps = .ok c := by
  intro n comps
  induction comps generalizing n with
  | nil => intro h; simp [fileAt] at h
  | cons name rest ih =>
    intro h
    cases n with
    | file _ => simp [fileAt] at h
    | symlink _ => simp [fileAt] at h
    | dir es =>
      cases rest with
      | nil =>
        cases hlk : lookupEntry es name with
        | none =>
          refine ⟨.dir (setEntry es name (.file c)), ?_, ?_⟩
          · have hstep : updateFile f true (.dir es) [name] =
                (match lookupEntry es name with
                 | none =>
                   match f none with
                   | .error e => .error e
                   | .ok (c, r) => .ok (.dir (setEntry es name (.file c)), r)
                 | some (.file b) =>
                   match f (some b) with
                   | .error e => .error e
                   | .ok (c, r) => .ok (.dir (setEntry es name (.file c)), r)
                 | some (.dir _) => .error .notAFile
                 | some (.symlink _) => .error .notAFile) := rfl
            rw [hstep, hlk]
            simp [hf]
          · simp [fileAt, lookup_setEntry_self]
        | some child => cases child <;> simp [fileAt, hlk] at h
      | cons b2 t =>
        cases hlk : lookupEntry es name with
        | none =>
          obtain ⟨n', hn', hread⟩ := updateFile_fresh f c r hf (b2 :: t) (by simp)
          obtain ⟨es0, name0, rest0, v0, -, -, hshape⟩ := updateFile_ok_shape hn'
          refine ⟨.dir (setEntry es name n'), ?_, ?_⟩
          · have hstep : updateFile f true (.dir es) (name :: b2 :: t) =
                (match lookupEntry es name with
                 | none =>
                   match updateFile f true (.dir []) (b2 :: t) with
                   | .error e => .error e
                   | .ok (child, r) => .ok (.dir (setEntry es name child), r)
                 | some (.file _) => .error .notADirectory
                 | some (.symlink _) => .error .notADirectory
                 | some (.dir es') =>
                   match updateFile f true (.dir es') (b2 :: t) with
                   | .error e => .error e
                   | .ok (child, r) => .ok (.dir (setEntry es name child), r)) := rfl
            rw [hstep, hlk]
            simp [hn']
          · rw [hshape] at hread ⊢
            have hstep : fileAt (.dir (setEntry es name (.dir (setEntry es0 name0 v0))))
                (name :: b2 :: t) =
                (match lookupEntry (setEntry es name (.dir (setEntry es0 name0 v0)))
                    name with
                 | none => .error .notFound
                 | some (.file _) => .error .notADirectory
                 | some (.symlink _) => .error .notADirectory
                 | some (.dir es') => fileAt (.dir es') (b2 :: t)) := rfl
            rw [hstep, lookup_setEntry_self]
            exact hread
        | some child =>
          cases child with
          | file _ => simp [fileAt, hlk] at h
          | symlink _ => simp [fileAt, hlk] at h
          | dir es' =>
            have hstepR : fileAt (.dir es) (name :: b2 :: t) =
                fileAt (.dir es') (b2 :: t) := by
              have : fileAt (.dir es) (name :: b2 :: t) =
                  (match lookupEntry es name with
                   | none => .error .notFound
                   | some (.file _) => .error .notADirectory
                   | some (.symlink _) => .error .notADirectory
                   | some (.dir es') => fileAt (.dir es') (b2 :: t)) := rfl
              rw [this, hlk]
            rw [hstepR] at h
            obtain ⟨child', hupd, hread⟩ := ih h
            obtain ⟨es0, name0, rest0, v0, -, -, hshape⟩ := updateFile_ok_shape hupd
            refine ⟨.dir (setEntry es name child'), ?_, ?_⟩
            · have hstep : updateFile f true (.dir es) (name :: b2 :: t) =
                  (match lookupEntry es name with
                   | none =>
                     match updateFile f true (.dir []) (b2 :: t) with
                     | .error e => .error e
                     | .ok (child, r) => .ok (.dir (setEntry es name child), r)
                   | some (.file _) => .error .notADirectory
                   | some (.symlink _) => .error .notADirectory
                   | some (.dir es') =>
                     match updateFile f true (.dir es') (b2 :: t) with
                     | .error e => .error e
                     | .ok (child, r) => .ok (.dir (setEntry es name child), r)) := rfl
              rw [hstep, hlk]
              simp [hupd]
            · rw [hshape] at hread ⊢
              have hstep : fileAt (.dir (setEntry es name (.dir (setEntry es0 name0 v0))))
                  (name :: b2 :: t) =
                  (match lookupEntry (setEntry es name (.dir (setEntry es0 name0 v0)))
                      name with
                   | none => .error .notFound
                   | some (.file _) => .error .notADirectory
                   | some (.symlink _) => .error .notADirectory
                   | some (.dir es') => fileAt (.dir es') (b2 :: t)) := rfl
              rw [hstep, lookup_setEntry_self]
              exact hread

/-! ## Shape and lifecycle lemmas (for C2) -/

theorem lookup_some_ne_nil {es : List (Name × Node)} {name : Name} {v : Node}
    (h : lookupEntry es name = some v) : es ≠ [] := by
  intro he
  subst he
  simp [lookupEntry] at h

theorem goodState_some_dir {es : List (Name × Node)} (h : es ≠ []) :
    goodState (some (.dir es)) = true := by
  cases es with
  | nil => exact absurd rfl h
  | cons a t => rfl

theorem collapse_dir_good (es : List (Name × Node)) :
    goodState (collapse (.dir es)) = true := by
  cases es with
  | nil => rfl
  | cons a t => rfl

theorem mkdirAt_ok_shape {p : Bool} {n n' : Node} {comps : List Name}
    (h : mkdirAt p n comps = .ok n') : ∃ es', n' = .dir es' ∧ es' ≠ [] := by
  cases n with
  | file b => cases comps <;> simp [mkdirAt] at h
  | symlink t => cases comps <;> simp [mkdirAt] at h
  | dir es =>
    cases comps with
    | nil => simp [mkdirAt] at h
    | cons name rest =>
      cases rest with
      | nil =>
        simp only [mkdirAt] at h
        split at h
        · simp at h
          exact ⟨_, h.symm, setEntry_ne_nil es name (.dir [])⟩
        · rename_i hlk
          split at h <;> simp at h
          exact ⟨es, h.symm, lookup_some_ne_nil hlk⟩
        · split at h <;> simp at h
      | cons b t =>
        simp only [mkdirAt] at h
        split at h
        · split at h
          · split at h <;> simp at h
            exact ⟨_, h.symm, setEntry_ne_nil es name _⟩
          · simp at h
        · split at h <;> simp at h
          exact ⟨_, h.symm, setEntry_ne_nil es name _⟩
        · simp at h

theorem removeAt_ok_dir {r : Bool} {n n' : Node} {comps : List Name} {b : Bool}
    (h : removeAt r n comps = .ok (n', b)) : ∃ es', n' = .dir es' := by
  cases n with
  | file c => cases comps <;> simp [removeAt] at h
  | symlink t => cases comps <;> simp [removeAt] at h
  | dir es =>
    cases comps with
    | nil => simp [removeAt] at h
    | cons name rest =>
      cases rest with
      | nil =>
        simp only [removeAt] at h
        split at h
        · simp at h
          exact ⟨es, h.1.symm⟩
        · split at h <;> simp at h
          exact ⟨_, h.1.symm⟩
        · simp at h
          exact ⟨_, h.1.symm⟩
      | cons c t =>
        simp only [removeAt] at h
        split at h
        · simp at h
          exact ⟨es, h.1.symm⟩
        · split at h <;> simp at h
          exact ⟨_, h.1.symm⟩
        · simp at h
          exact ⟨es, h.1.symm⟩

theorem insertNodeAt_ok_shape {v n n' : Node} {comps : List Name}
    (h : insertNodeAt v n comps = .ok n') :
    ∃ es name w, n' = .dir (setEntry es name w) := by
  cases n with
  | file c => cases comps <;> simp [insertNodeAt] at h
  | symlink t => cases comps <;> simp [insertNodeAt] at h
  | dir es =>
    cases comps with
    | nil => simp [insertNodeAt] at h
    | cons name rest =>
      cases rest with
      | nil =>
        simp only [insertNodeAt] at h
        split at h <;> simp at h
        exact ⟨es, name, v, h.symm⟩
      | cons c t =>
        simp only [insertNodeAt] at h
        split at h
        · simp at h
        · split at h <;> simp at h
          exact ⟨es, name, _, h.symm⟩
        · simp at h

theorem exec_ok_split {s : State} {c : Cmd} {s' : State} {r : Reply}
    (h : exec s c = (s', r)) (hr : ∀ e, r ≠ .err e) : execE s c = .ok (s', r) := by
  rw [exec] at h
  cases hE : execE s c with
  | error e =>
    rw [hE] at h
    exact absurd (congrArg Prod.snd h).symm (hr e)
  | ok pr =>
    rw [hE] at h
    have h2 : pr = (s', r) := h
    exact congrArg Except.ok h2

theorem updateFile_result_good {f : Option Bytes → Except Err (Bytes × Int)}
    {create : Bool} {n root' : Node} {comps : List Name} {r : Int}
    (h : updateFile f create n comps = .ok (root', r)) :
    goodState (some root') = true := by
  obtain ⟨es, name, rest, v, -, -, hshape⟩ := updateFile_ok_shape h
  rw [hshape]
  exact goodState_some_dir (setEntry_ne_nil es name v)

/-- Every modelled command preserves the lifecycle invariant: the key is
never left holding a volume whose root is an empty directory, and the
root is always a directory (spec §3: auto-create / auto-delete; §8
quantified invariants). -/
theorem exec_preserves_good :
    ∀ (c : Cmd) (s : State), goodState s = true → goodState (exec s c).1 = true := by
  intro c s hs
  rw [exec]
  cases c with
  | echo p x =>
    cases hE : execE s (.echo p x) with
    | error e => exact hs
    | ok pr =>
      cases hcp : checkPath p with
      | error e => exact absurd hE (by simp [execE, hcp])
      | ok comps =>
        cases hup : updateFile (fun _ => .ok (x, 0)) true (rootOf s) comps with
        | error e => exact absurd hE (by simp [execE, hcp, hup])
        | ok pr2 =>
          obtain ⟨root', r'⟩ := pr2
          have hX : execE s (.echo p x) = .ok (some root', .ok) := by
            simp [execE, hcp, hup]
          have h2 := hX.symm.trans hE
          simp only [Except.ok.injEq] at h2
          rw [← h2]
          exact updateFile_result_good hup
  | touch p =>
    cases hE : execE s (.touch p) with
    | error e => exact hs
    | ok pr =>
      cases hcp : checkPath p with
      | error e => exact absurd hE (by simp [execE, hcp])
      | ok comps =>
        cases hup : updateFile (fun ob => .ok (ob.getD [], 0)) true (rootOf s) comps with
        | error e => exact absurd hE (by simp [execE, hcp, hup])
        | ok pr2 =>
          obtain ⟨root', r'⟩ := pr2
          have hX : execE s (.touch p) = .ok (some root', .ok) := by
            simp [execE, hcp, hup]
          have h2 := hX.symm.trans hE
          simp only [Except.ok.injEq] at h2
          rw [← h2]
          exact updateFile_result_good hup
  | mkdir p par =>
    cases hE : execE s (.mkdir p par) with
    | error e => exact hs
    | ok pr =>
      cases hcp : checkPath p with
      | error e => exact absurd hE (by simp [execE, hcp])
      | ok comps =>
        cases hmk : mkdirAt par (rootOf s) comps with
        | error e => exact absurd hE (by simp [execE, hcp, hmk])
        | ok root' =>
          have hX : execE s (.mkdir p par) = .ok (some root', .ok) := by
            simp [execE, hcp, hmk]
          have h2 := hX.symm.trans hE
          simp only [Except.ok.injEq] at h2
          rw [← h2]
          obtain ⟨es', hd, hne⟩ := mkdirAt_ok_shape hmk
          rw [hd]
          exact goodState_some_dir hne
  | insert p a x =>
    cases hE : execE s (.insert p a x) with
    | error e => exact hs
    | ok pr =>
      cases hcp : checkPath p with
      | error e => exact absurd hE (by simp [execE, hcp])
      | ok comps =>
        by_cases hv : a < -1
        · exact absurd hE (by simp [execE, hcp, hv])
        · cases hup : updateFile (fun ob => .ok (insertContent a x ob, 0)) true
              (rootOf s) comps with
          | error e => exact absurd hE (by simp [execE, hcp, hv, hup])
          | ok pr2 =>
            obtain ⟨root', r'⟩ := pr2
            have hX : execE s (.insert p a x) = .ok (some root', .ok) := by
              simp [execE, hcp, hv, hup]
            have h2 := hX.symm.trans hE
            simp only [Except.ok.injEq] at h2
            rw [← h2]
            exact updateFile_result_good hup
  | deleteLines p a b =>
    cases hE : execE s (.deleteLines p a b) with
    | error e => exact hs
    | ok pr =>
      cases hcp : checkPath p with
      | error e => exact absurd hE (by simp [execE, hcp])
      | ok comps =>
        by_cases hv : a < 1 ∨ b < a
        · exact absurd hE (by simp [execE, hcp, hv])
        · cases hup : updateFile (fun ob =>
              match ob with
              | none => .error .notFound
              | some bs => .ok (deleteLinesBytes a.toNat b.toNat bs)) false
              (rootOf s) comps with
          | error e =>
            cases e with
            | notFound =>
              have hX : execE s (.deleteLines p a b) = .ok (s, .nil) := by
                simp [execE, hcp, hv, hup]
              have h2 := hX.symm.trans hE
              simp only [Except.ok.injEq] at h2
              rw [← h2]
              exact hs
            | notAFile => exact absurd hE (by simp [execE, hcp, hv, hup])
            | notADirectory => exact absurd hE (by simp [execE, hcp, hv, hup])
            | notASymlink => exact absurd hE (by simp [execE, hcp, hv, hup])
            | alreadyExists => exact absurd hE (by simp [execE, hcp, hv, hup])
            | notEmpty => exact absurd hE (by simp [execE, hcp, hv, hup])
            | invalidPath => exact absurd hE (by simp [execE, hcp, hv, hup])
            | invalidArgument => exact absurd hE (by simp [execE, hcp, hv, hup])
            | depthExceeded => exact absurd hE (by simp [execE, hcp, hv, hup])
            | symlinkLoop => exact absurd hE (by simp [execE, hcp, hv, hup])
          | ok pr2 =>
            obtain ⟨root', r'⟩ := pr2
            have hX : execE s (.deleteLines p a b) = .ok (some root', .int r') := by
              simp [execE, hcp, hv, hup]
            have h2 := hX.symm.trans hE
            simp only [Except.ok.injEq] at h2
            rw [← h2]
            exact updateFile_result_good hup
  | replace p old nw all band =>
    cases hE : execE s (.replace p old nw all band) with
    | error e => exact hs
    | ok pr =>
      cases hcp : checkPath p with
      | error e => exact absurd hE (by simp [execE, hcp])
      | ok comps =>
        by_cases hv : old.isEmpty = true
        · exact absurd hE (by simp [execE, hcp, hv])
        · cases hup : updateFile (fun ob =>
              match ob with
              | none => .error .notFound
              | some bs => .ok (replaceBytes bs old nw all band)) false
              (rootOf s) comps with
          | error e =>
            cases e with
            | notFound =>
              have hX : execE s (.replace p old nw all band) = .ok (s, .nil) := by
                simp [execE, hcp, hv, hup]
              have h2 := hX.symm.trans hE
              simp only [Except.ok.injEq] at h2
              rw [← h2]
              exact hs
            | notAFile => exact absurd hE (by simp [execE, hcp, hv, hup])
            | notADirectory => exact absurd hE (by simp [execE, hcp, hv, hup])
            | notASymlink => exact absurd hE (by simp [execE, hcp, hv, hup])
            | alreadyExists => exact absurd hE (by simp [execE, hcp, hv, hup])
            | notEmpty => exact absurd hE (by simp [execE, hcp, hv, hup])
            | invalidPath => exact absurd hE (by simp [execE, hcp, hv, hup])
            | invalidArgument => exact absurd hE (by simp [execE, hcp, hv, hup])
            | depthExceeded => exact absurd hE (by simp [execE, hcp, hv, hup])
            | symlinkLoop => exact absurd hE (by simp [execE, hcp, hv, hup])
          | ok pr2 =>
            obtain ⟨root', r'⟩ := pr2
            have hX : execE s (.replace p old nw all band) =
                .ok (some root', .int r') := by
              simp [execE, hcp, hv, hup]
            have h2 := hX.symm.trans hE
            simp only [Except.ok.injEq] at h2
            rw [← h2]
            exact updateFile_result_good hup
  | rm p rec =>
    cases hE : execE s (.rm p rec) with
    | error e => exact hs
    | ok pr =>
      cases hcp : checkPath p with
      | error e => exact absurd hE (by simp [execE, hcp])
      | ok comps =>
        cases hrm : removeAt rec (rootOf s) comps with
        | error e => exact absurd hE (by simp [execE, hcp, hrm])
        | ok pr2 =>
          obtain ⟨root', removed⟩ := pr2
          have hX : execE s (.rm p rec) =
              .ok (collapse root', .int (if removed then 1 else 0)) := by
            simp [execE, hcp, hrm]
          have h2 := hX.symm.trans hE
          simp only [Except.ok.injEq] at h2
          rw [← h2]
          obtain ⟨es', hd⟩ := removeAt_ok_dir hrm
          rw [hd]
          exact collapse_dir_good es'
  | mv src dst =>
    cases hE : execE s (.mv src dst) with
    | error e => exact hs
    | ok pr =>
      cases hcp1 : checkPath src with
      | error e => exact absurd hE (by simp [execE, hcp1])
      | ok sc =>
        cases hcp2 : checkPath dst with
        | error e => exact absurd hE (by simp [execE, hcp1, hcp2])
        | ok dc =>
          by_cases h1 : sc.isEmpty = true
          · exact absurd hE (by simp [execE, hcp1, hcp2, h1])
          · by_cases h2p : (sc.isPrefixOf dc && !(decide (sc = dc))) = true
            · exact absurd hE (by simp [execE, hcp1, hcp2, h1, h2p])
            · cases hdet : detachAt (rootOf s) sc with
              | error e =>
                exact absurd hE (by simp [execE, hcp1, hcp2, h1, h2p, hdet])
              | ok pr3 =>
                obtain ⟨tree', v⟩ := pr3
                cases hins : insertNodeAt v tree' dc with
                | error e =>
                  exact absurd hE
                    (by simp [execE, hcp1, hcp2, h1, h2p, hdet, hins])
                | ok tree'' =>
                  have hX : execE s (.mv src dst) = .ok (collapse tree'', .ok) := by
                    simp [execE, hcp1, hcp2, h1, h2p, hdet, hins]
                  have h2 := hX.symm.trans hE
                  simp only [Except.ok.injEq] at h2
                  rw [← h2]
                  obtain ⟨es', name, w, hd⟩ := insertNodeAt_ok_shape hins
                  rw [hd]
                  exact collapse_dir_good _
  | ln t l =>
    cases hE : execE s (.ln t l) with
    | error e => exact hs
    | ok pr =>
      cases hcp : checkPath l with
      | error e => exact absurd hE (by simp [execE, hcp])
      | ok comps =>
        cases hins : insertNodeAt (.symlink t) (rootOf s) comps with
        | error e => exact absurd hE (by simp [execE, hcp, hins])
        | ok root' =>
          have hX : execE s (.ln t l) = .ok (some root', .ok) := by
            simp [execE, hcp, hins]
          have h2 := hX.symm.trans hE
          simp only [Except.ok.injEq] at h2
          rw [← h2]
          obtain ⟨es', name, w, hd⟩ := insertNodeAt_ok_shape hins
          rw [hd]
          exact goodState_some_dir (setEntry_ne_nil es' name w)
  | cat p =>
    cases hE : execE s (.cat p) with
    | error e => exact hs
    | ok pr =>
      cases hcp : checkPath p with
      | error e => exact absurd hE (by simp [execE, hcp])
      | ok comps =>
        cases hrep : catReply s comps with
        | error e => exact absurd hE (by simp [execE, hcp, hrep])
        | ok rep =>
          have hX : execE s (.cat p) = .ok (s, rep) := by
            simp [execE, hcp, hrep]
          have h2 := hX.symm.trans hE
          simp only [Except.ok.injEq] at h2
          rw [← h2]
          exact hs
  | wc p =>
    cases hE : execE s (.wc p) with
    | error e => exact hs
    | ok pr =>
      cases hcp : checkPath p with
      | error e => exact absurd hE (by simp [execE, hcp])
      | ok comps =>
        cases hrep : wcReply s comps with
        | error e => exact absurd hE (by simp [execE, hcp, hrep])
        | ok rep =>
          have hX : execE s (.wc p) = .ok (s, rep) := by
            simp [execE, hcp, hrep]
          have h2 := hX.symm.trans hE
          simp only [Except.ok.injEq] at h2
          rw [← h2]
          exact hs
  | testPath p =>
    cases hE : execE s (.testPath p) with
    | error e => exact hs
    | ok pr =>
      cases hcp : checkPath p with
      | error e => exact absurd hE (by simp [execE, hcp])
      | ok comps =>
        cases hrep : testReply s comps with
        | error e => exact absurd hE (by simp [execE, hcp, hrep])
        | ok rep =>
          have hX : execE s (.testPath p) = .ok (s, rep) := by
            simp [execE, hcp, hrep]
          have h2 := hX.symm.trans hE
          simp only [Except.ok.injEq] at h2
          rw [← h2]
          exact hs

/-! ## Claim theorems -/

/-- C3: a mutating command (`ECHO`, `TOUCH`, `MKDIR PARENTS`, `INSERT`)
whose path has exactly 256 components after normalisation succeeds (shown
against a fresh volume), while a path with 257 or more components fails
with depth-exceeded and the failure is atomic: the volume is exactly what
it was, so no inode is created for any prefix of the path and in
particular the 256-component truncation does not exist afterwards
(observable through `FS.TEST`). -/
theorem c3_depth_limit :
    (∀ s raw x comps, normPath raw = some comps → 257 ≤ comps.length →
      exec s (.echo raw x) = (s, .err .depthExceeded)) ∧
    (∀ s raw comps, normPath raw = some comps → 257 ≤ comps.length →
      exec s (.touch raw) = (s, .err .depthExceeded)) ∧
    (∀ s raw parents comps, normPath raw = some comps → 257 ≤ comps.length →
      exec s (.mkdir raw parents) = (s, .err .depthExceeded)) ∧
    (∀ s raw a x comps, normPath raw = some comps → 257 ≤ comps.length →
      exec s (.insert raw a x) = (s, .err .depthExceeded)) ∧
    (∀ raw x comps, normPath raw = some comps → comps.length = 256 →
      (exec none (.echo raw x)).2 = .ok) ∧
    (∀ raw comps, normPath raw = some comps → comps.length = 256 →
      (exec none (.touch raw)).2 = .ok) ∧
    (∀ raw comps, normPath raw = some comps → comps.length = 256 →
      (exec none (.mkdir raw true)).2 = .ok) ∧
    (∀ s raw x comps, normPath raw = some comps → 257 ≤ comps.length →
      ∀ q, (exec (exec s (.echo raw x)).1 (.testPath q)).2 =
        (exec s (.testPath q)).2) := by
  have hecho : ∀ s raw x comps, normPath raw = some comps → 257 ≤ comps.length →
      exec s (.echo raw x) = (s, .err .depthExceeded) := by
    intro s raw x comps hnorm hlen
    simp [exec, execE, checkPath_overlong raw comps hnorm hlen]
  have hne : ∀ comps : List Name, comps.length = 256 → comps ≠ [] := by
    intro comps hlen h
    rw [h] at hlen
    simp at hlen
  refine ⟨hecho, ?_, ?_, ?_, ?_, ?_, ?_, ?_⟩
  · intro s raw comps hnorm hlen
    simp [exec, execE, checkPath_overlong raw comps hnorm hlen]
  · intro s raw parents comps hnorm hlen
    simp [exec, execE, checkPath_overlong raw comps hnorm hlen]
  · intro s raw a x comps hnorm hlen
    simp [exec, execE, checkPath_overlong raw comps hnorm hlen]
  · intro raw x comps hnorm hlen
    obtain ⟨n', hn', -⟩ :=
      updateFile_fresh (fun _ => .ok (x, 0)) x 0 rfl comps (hne comps hlen)
    simp [exec, execE, checkPath_inDepth raw comps hnorm (le_of_eq hlen), rootOf, hn']
  · intro raw comps hnorm hlen
    obtain ⟨n', hn', -⟩ :=
      updateFile_fresh (fun ob => .ok (ob.getD [], 0)) [] 0 rfl comps (hne comps hlen)
    simp [exec, execE, checkPath_inDepth raw comps hnorm (le_of_eq hlen), rootOf, hn']
  · intro raw comps hnorm hlen
    obtain ⟨n', hn'⟩ := mkdirAt_fresh comps (hne comps hlen)
    simp [exec, execE, checkPath_inDepth raw comps hnorm (le_of_eq hlen), rootOf, hn']
  · intro s raw x comps hnorm hlen q
    rw [hecho s raw x comps hnorm hlen]

set_option maxRecDepth 100000 in
/-- Witness for C3: a 257-component path fails with depth-exceeded and a
256-component path succeeds, on a fresh volume. -/
theorem c3_depth_limit_witness :
    exec none (.echo ((List.replicate 257 ([47, 100] : List Nat)).flatten) [120]) =
      (none, .err .depthExceeded) ∧
    (exec none (.echo ((List.replicate 256 ([47, 100] : List Nat)).flatten) [120])).2 =
      .ok :=
  ⟨c3_depth_limit.1 none _ [120] (List.replicate 257 [100]) (by decide)
      (by simp),
   c3_depth_limit.2.2.2.2.1 _ [120] (List.replicate 256 [100]) (by decide)
      (by simp)⟩

/-- C2: the volume key exists iff the tree is non-trivial.  Invariantly, no
command ever leaves the key holding only an empty root (`goodState` is
preserved by every command, from the absent initial state onwards); every
successful auto-creating mutator (`ECHO`, `TOUCH`, `MKDIR`, `INSERT`,
`LN`) against the absent key materialises the volume; removing the last
file auto-deletes the key, removing only part of the tree leaves it
present, and a recursive `FS.RM` that empties the tree deletes the key. -/
theorem c2_key_lifecycle :
    (∀ (c : Cmd) (s : State), goodState s = true → goodState (exec s c).1 = true) ∧
    (∀ raw x s', exec none (.echo raw x) = (s', .ok) → s' ≠ none) ∧
    (∀ raw s', exec none (.touch raw) = (s', .ok) → s' ≠ none) ∧
    (∀ raw par s', exec none (.mkdir raw par) = (s', .ok) → s' ≠ none) ∧
    (∀ raw a x s', exec none (.insert raw a x) = (s', .ok) → s' ≠ none) ∧
    (∀ t l s', exec none (.ln t l) = (s', .ok) → s' ≠ none) ∧
    exec (exec none (.echo [47, 102] [100])).1 (.rm [47, 102] false) =
      (none, .int 1) ∧
    (exec (exec (exec none (.echo [47, 97] [100])).1 (.echo [47, 98] [100])).1
        (.rm [47, 97] false)).1 = some (.dir [([98], .file [100])]) ∧
    (exec (some (.dir [([98], .file [100])])) (.rm [47, 98] false)).1 = none ∧
    (exec (exec (exec none (.echo [47, 100, 47, 97] [49])).1
        (.echo [47, 100, 47, 98] [50])).1 (.rm [47, 100] true)).1 = none := by
  refine ⟨exec_preserves_good, ?_, ?_, ?_, ?_, ?_, rfl, rfl, rfl, rfl⟩
  · intro raw x s' h
    have hE := exec_ok_split h (by simp)
    cases hcp : checkPath raw with
    | error e => exact absurd hE (by simp [execE, hcp])
    | ok comps =>
      cases hup : updateFile (fun _ => .ok (x, 0)) true (rootOf none) comps with
      | error e => exact absurd hE (by simp [execE, hcp, hup])
      | ok pr2 =>
        obtain ⟨root', r'⟩ := pr2
        have hX : execE none (.echo raw x) = .ok (some root', .ok) := by
          simp [execE, hcp, hup]
        have h2 := hX.symm.trans hE
        simp only [Except.ok.injEq, Prod.mk.injEq] at h2
        rw [← h2.1]
        simp
  · intro raw s' h
    have hE := exec_ok_split h (by simp)
    cases hcp : checkPath raw with
    | error e => exact absurd hE (by simp [execE, hcp])
    | ok comps =>
      cases hup : updateFile (fun ob => .ok (ob.getD [], 0)) true (rootOf none) comps with
      | error e => exact absurd hE (by simp [execE, hcp, hup])
      | ok pr2 =>
        obtain ⟨root', r'⟩ := pr2
        have hX : execE none (.touch raw) = .ok (some root', .ok) := by
          simp [execE, hcp, hup]
        have h2 := hX.symm.trans hE
        simp only [Except.ok.injEq, Prod.mk.injEq] at h2
        rw [← h2.1]
        simp
  · intro raw par s' h
    have hE := exec_ok_split h (by simp)
    cases hcp : checkPath raw with
    | error e => exact absurd hE (by simp [execE, hcp])
    | ok comps =>
      cases hmk : mkdirAt par (rootOf none) comps with
      | error e => exact absurd hE (by simp [execE, hcp, hmk])
      | ok root' =>
        have hX : execE none (.mkdir raw par) = .ok (some root', .ok) := by
          simp [execE, hcp, hmk]
        have h2 := hX.symm.trans hE
        simp only [Except.ok.injEq, Prod.mk.injEq] at h2
        rw [← h2.1]
        simp
  · intro raw a x s' h
    have hE := exec_ok_split h (by simp)
    cases hcp : checkPath raw with
    | error e => exact absurd hE (by simp [execE, hcp])
    | ok comps =>
      by_cases hv : a < -1
      · exact absurd hE (by simp [execE, hcp, hv])
      · cases hup : updateFile (fun ob => .ok (insertContent a x ob, 0)) true
            (rootOf none) comps with
        | error e => exact absurd hE (by simp [execE, hcp, hv, hup])
        | ok pr2 =>
          obtain ⟨root', r'⟩ := pr2
          have hX : execE none (.insert raw a x) = .ok (some root', .ok) := by
            simp [execE, hcp, hv, hup]
          have h2 := hX.symm.trans hE
          simp only [Except.ok.injEq, Prod.mk.injEq] at h2
          rw [← h2.1]
          simp
  · intro t l s' h
    have hE := exec_ok_split h (by simp)
    cases hcp : checkPath l with
    | error e => exact absurd hE (by simp [execE, hcp])
    | ok comps =>
      cases hins : insertNodeAt (.symlink t) (rootOf none) comps with
      | error e => exact absurd hE (by simp [execE, hcp, hins])
      | ok root' =>
        have hX : execE none (.ln t l) = .ok (some root', .ok) := by
          simp [execE, hcp, hins]
        have h2 := hX.symm.trans hE
        simp only [Except.ok.injEq, Prod.mk.injEq] at h2
        rw [← h2.1]
        simp

/-- Witness for C2: the preservation clause applied to `FS.ECHO /f` on the
absent volume, and the creation clause at that concrete command. -/
theorem c2_key_lifecycle_witness :
    goodState (exec none (.echo [47, 102] [100])).1 = true ∧
    (exec none (.echo [47, 102] [100])).1 ≠ none :=
  ⟨c2_key_lifecycle.1 (.echo [47, 102] [100]) none rfl,
   c2_key_lifecycle.2.1 [47, 102] [100] (some (.dir [([102], .file [100])])) rfl⟩

/-! ## Occurrence-scan lemmas (for C8) -/

theorem occScan_nil (old : Bytes) (band : Nat → Bool) (all : Bool) :
    ∀ (rem : Bytes) (i : Nat),
      (∀ d, (old.isPrefixOf (rem.drop d) && band (i + d)) = false) →
      occScan old band all rem i = [] := by
  intro rem
  induction rem with
  | nil => intro i h; rw [occScan]
  | cons c tail ih =>
    intro i h
    have h0 := h 0
    simp only [List.drop_zero, Nat.add_zero] at h0
    rw [occScan, h0]
    exact ih (i + 1) (fun d => by
      have := h (d + 1)
      simpa [Nat.add_assoc, Nat.add_comm 1 d] using this)

theorem occScan_first (old : Bytes) (band : Nat → Bool) (hold : old ≠ []) :
    ∀ (rem : Bytes) (i d₀ : Nat),
      (old.isPrefixOf (rem.drop d₀) && band (i + d₀)) = true →
      (∀ d < d₀, (old.isPrefixOf (rem.drop d) && band (i + d)) = false) →
      occScan old band false rem i = [i + d₀] := by
  intro rem
  induction rem with
  | nil =>
    intro i d₀ hc _
    simp only [List.drop_nil, Bool.and_eq_true] at hc
    have : old = [] := by
      have := hc.1
      rwa [List.isPrefixOf_iff_prefix, List.prefix_nil] at this
    exact absurd this hold
  | cons c tail ih =>
    intro i d₀ hc hmin
    cases d₀ with
    | zero =>
      simp only [List.drop_zero, Nat.add_zero] at hc
      rw [occScan, hc]
      simp
    | succ d =>
      have h0 : (old.isPrefixOf (c :: tail) && band i) = false := by
        have := hmin 0 (by omega)
        simpa using this
      rw [occScan, h0]
      have := ih (i + 1) d (by
          have : (c :: tail).drop (d + 1) = tail.drop d := rfl
          rw [this] at hc
          simpa [Nat.add_assoc, Nat.add_comm 1 d] using hc)
        (fun e he => by
          have := hmin (e + 1) (by omega)
          simpa [Nat.add_assoc, Nat.add_comm 1 e] using this)
      have harith : i + 1 + d = i + (d + 1) := by omega
      rw [this, harith]
      simp

theorem occScan_all_sound (old : Bytes) (band : Nat → Bool) (hold : old ≠ []) :
    ∀ (L : Nat) (rem : Bytes) (i : Nat), rem.length ≤ L →
      ∀ j ∈ occScan old band true rem i,
        i ≤ j ∧ (old.isPrefixOf (rem.drop (j - i)) && band j) = true := by
  intro L
  induction L with
  | zero =>
    intro rem i hlen j hj
    have : rem = [] := List.length_eq_zero.mp (by omega)
    subst this
    rw [occScan] at hj
    simp at hj
  | succ L ih =>
    intro rem i hlen j hj
    cases rem with
    | nil =>
      rw [occScan] at hj
      simp at hj
    | cons c tail =>
      by_cases hc : (old.isPrefixOf (c :: tail) && band i) = true
      · rw [occScan, hc] at hj
        simp only [if_true, List.mem_cons] at hj
        rcases hj with hj | hj
        · subst hj
          exact ⟨le_rfl, by simpa using hc⟩
        · have hlen1 : 1 ≤ old.length := by
            cases old with
            | nil => exact absurd rfl hold
            | cons a t => simp
          have hlen' : (tail.drop (old.length - 1)).length ≤ L := by
            simp only [List.length_drop]
            simp only [List.length_cons] at hlen
            omega
          obtain ⟨hij, hpre⟩ := ih (tail.drop (old.length - 1)) (i + old.length)
            hlen' j hj
          refine ⟨by omega, ?_⟩
          have hdrop : (tail.drop (old.length - 1)).drop (j - (i + old.length)) =
              (c :: tail).drop (j - i) := by
            rw [List.drop_drop]
            have h1 : (c :: tail).drop (j - i) = tail.drop (j - i - 1) := by
              have : j - i = (j - i - 1) + 1 := by omega
              rw [this]
              rfl
            rw [h1]
            congr 1
            omega
          rwa [hdrop] at hpre
      · rw [occScan] at hj
        simp only [hc, if_false] at hj
        have hlen' : tail.length ≤ L := by
          simp only [List.length_cons] at hlen
          omega
        obtain ⟨hij, hpre⟩ := ih tail (i + 1) hlen' j hj
        refine ⟨by omega, ?_⟩
        have hdrop : tail.drop (j - (i + 1)) = (c :: tail).drop (j - i) := by
          have h1 : (c :: tail).drop (j - i) = tail.drop (j - i - 1) := by
            have : j - i = (j - i - 1) + 1 := by omega
            rw [this]
            rfl
          rw [h1]
          have h2 : j - (i + 1) = j - i - 1 := by omega
          rw [h2]
        rwa [hdrop] at hpre

theorem occScan_all_cover (old : Bytes) (band : Nat → Bool) (hold : old ≠ []) :
    ∀ (L : Nat) (rem : Bytes) (i : Nat), rem.length ≤ L →
      ∀ d, (old.isPrefixOf (rem.drop d) && band (i + d)) = true →
        ∃ j ∈ occScan old band true rem i, j ≤ i + d ∧ i + d < j + old.length := by
  intro L
  induction L with
  | zero =>
    intro rem i hlen d hc
    have : rem = [] := List.length_eq_zero.mp (by omega)
    subst this
    simp only [List.drop_nil, Bool.and_eq_true] at hc
    have : old = [] := by
      have := hc.1
      rwa [List.isPrefixOf_iff_prefix, List.prefix_nil] at this
    exact absurd this hold
  | succ L ih =>
    intro rem i hlen d hc
    cases rem with
    | nil =>
      simp only [List.drop_nil, Bool.and_eq_true] at hc
      have : old = [] := by
        have := hc.1
        rwa [List.isPrefixOf_iff_prefix, List.prefix_nil] at this
      exact absurd this hold
    | cons c tail =>
      have hlen1 : 1 ≤ old.length := by
        cases old with
        | nil => exact absurd rfl hold
        | cons a t => simp
      by_cases hhead : (old.isPrefixOf (c :: tail) && band i) = true
      · by_cases hd : d < old.length
        · refine ⟨i, ?_, by omega, by omega⟩
          rw [occScan, hhead]
          simp
        · have hlen' : (tail.drop (old.length - 1)).length ≤ L := by
            simp only [List.length_drop]
            simp only [List.length_cons] at hlen
            omega
          have hdrop : (tail.drop (old.length - 1)).drop (d - old.length) =
              (c :: tail).drop d := by
            rw [List.drop_drop]
            have h1 : (c :: tail).drop d = tail.drop (d - 1) := by
              have : d = (d - 1) + 1 := by omega
              rw [this]
              rfl
            rw [h1]
            congr 1
            omega
          have hc' : (old.isPrefixOf ((tail.drop (old.length - 1)).drop
              (d - old.length)) && band ((i + old.length) + (d - old.length))) =
              true := by
            rw [hdrop]
            have : (i + old.length) + (d - old.length) = i + d := by omega
            rw [this]
            exact hc
          obtain ⟨j, hjmem, hj1, hj2⟩ :=
            ih (tail.drop (old.length - 1)) (i + old.length) hlen'
              (d - old.length) hc'
          refine ⟨j, ?_, by omega, by omega⟩
          rw [occScan, hhead]
          simp only [if_true, List.mem_cons]
          exact Or.inr hjmem
      · cases d with
        | zero =>
          simp only [List.drop_zero, Nat.add_zero] at hc
          exact absurd hc (by simpa using hhead)
        | succ d' =>
          have hlen' : tail.length ≤ L := by
            simp only [List.length_cons] at hlen
            omega
          have hc' : (old.isPrefixOf (tail.drop d') && band ((i + 1) + d')) =
              true := by
            have h1 : (c :: tail).drop (d' + 1) = tail.drop d' := rfl
            rw [h1] at hc
            have : (i + 1) + d' = i + (d' + 1) := by omega
            rw [this]
            exact hc
          obtain ⟨j, hjmem, hj1, hj2⟩ := ih tail (i + 1) hlen' d' hc'
          refine ⟨j, ?_, by omega, by omega⟩
          rw [occScan]
          simp only [hhead, if_false]
          exact hjmem

theorem spliceGo_single (len : Nat) (nw b : Bytes) (i : Nat) :
    spliceGo len nw b 0 [i] = b.take i ++ nw ++ b.drop (i + len) := by
  simp [spliceGo]

/-- C8: `FS.REPLACE` performs exact byte-string replacement and returns the
number of replacements: an empty `old` yields invalid-argument with the
volume unchanged; when no in-band occurrence exists the result is 0 and
the file is unchanged; without `ALL` only the leftmost in-band occurrence
is replaced (result 1, content spliced at that position); with `ALL` the
reply counts the collected occurrences, the content is the full splice,
every collected position is a genuine in-band occurrence (`LINE start
end` admits only matches lying entirely within the band, via `matchOk`),
and every in-band occurrence is covered by some replacement (leftmost,
non-overlapping). -/
theorem c8_replace :
    (∀ (s : State) (raw nw : Bytes) (all : Bool) (band : Option (Int × Int))
      (comps : List Name), checkPath raw = .ok comps →
      exec s (.replace raw [] nw all band) = (s, .err .invalidArgument)) ∧
    (∀ (s : State) (raw : Bytes) (comps : List Name) (b old nw : Bytes)
      (all : Bool) (band : Option (Int × Int)), checkPath raw = .ok comps →
      fileAt (rootOf s) comps = .ok b → old ≠ [] →
      (∀ i, matchOk b old band i = false) →
      (exec s (.replace raw old nw all band)).2 = .int 0 ∧
      fileAt (rootOf (exec s (.replace raw old nw all band)).1) comps = .ok b) ∧
    (∀ (s : State) (raw : Bytes) (comps : List Name) (b old nw : Bytes)
      (band : Option (Int × Int)) (i₀ : Nat), checkPath raw = .ok comps →
      fileAt (rootOf s) comps = .ok b → old ≠ [] →
      matchOk b old band i₀ = true → (∀ j < i₀, matchOk b old band j = false) →
      (exec s (.replace raw old nw false band)).2 = .int 1 ∧
      fileAt (rootOf (exec s (.replace raw old nw false band)).1) comps =
        .ok (b.take i₀ ++ nw ++ b.drop (i₀ + old.length))) ∧
    (∀ (s : State) (raw : Bytes) (comps : List Name) (b old nw : Bytes)
      (band : Option (Int × Int)), checkPath raw = .ok comps →
      fileAt (rootOf s) comps = .ok b → old ≠ [] →
      (exec s (.replace raw old nw true band)).2 =
        .int ((occScan old (bandOk band b old) true b 0).length : Int) ∧
      fileAt (rootOf (exec s (.replace raw old nw true band)).1) comps =
        .ok (spliceGo old.length nw b 0
          (occScan old (bandOk band b old) true b 0)) ∧
      (∀ j ∈ occScan old (bandOk band b old) true b 0,
        matchOk b old band j = true) ∧
      (∀ i, matchOk b old band i = true →
        ∃ j ∈ occScan old (bandOk band b old) true b 0,
          j ≤ i ∧ i < j + old.length)) := by
  have hstep : ∀ (s : State) (raw : Bytes) (comps : List Name) (b old nw : Bytes)
      (all : Bool) (band : Option (Int × Int)), checkPath raw = .ok comps →
      fileAt (rootOf s) comps = .ok b → old ≠ [] →
      exec s (.replace raw old nw all band) =
        (some ((updateFile (fun ob => match ob with
          | none => .error .notFound
          | some bs => .ok (replaceBytes bs old nw all band)) false
          (rootOf s) comps).toOption.map Prod.fst |>.getD (rootOf s)),
          .int ((occScan old (bandOk band b old) all b 0).length : Int)) ∧
      fileAt (rootOf (exec s (.replace raw old nw all band)).1) comps =
        .ok (spliceGo old.length nw b 0
          (occScan old (bandOk band b old) all b 0)) := by
    intro s raw comps b old nw all band hcp hread hne
    have hone : old.isEmpty = false := by
      cases old with
      | nil => exact absurd rfl hne
      | cons a t => rfl
    have hf : (fun ob => match ob with
        | none => (.error .notFound : Except Err (Bytes × Int))
        | some bs => .ok (replaceBytes bs old nw all band)) (some b) =
        .ok (spliceGo old.length nw b 0 (occScan old (bandOk band b old) all b 0),
          ((occScan old (bandOk band b old) all b 0).length : Int)) := rfl
    obtain ⟨n', hupd, hread'⟩ := updateFile_fileAt_ok false
      (fun ob => match ob with
        | none => (.error .notFound : Except Err (Bytes × Int))
        | some bs => .ok (replaceBytes bs old nw all band)) hf hread
    have hx : exec s (.replace raw old nw all band) =
        (some n', .int ((occScan old (bandOk band b old) all b 0).length : Int)) := by
      simp [exec, execE, hcp, hone, hupd]
    constructor
    · rw [hx, hupd]
      rfl
    · rw [hx]
      exact hread'
  refine ⟨?_, ?_, ?_, ?_⟩
  · intro s raw nw all band comps hcp
    simp [exec, execE, hcp]
  · intro s raw comps b old nw all band hcp hread hne hno
    obtain ⟨h1, h2⟩ := hstep s raw comps b old nw all band hcp hread hne
    have hocc : occScan old (bandOk band b old) all b 0 = [] := by
      apply occScan_nil
      intro d
      have := hno d
      simpa [matchOk] using this
    rw [hocc] at h1 h2
    rw [h1]
    refine ⟨rfl, ?_⟩
    rw [h1] at h2
    simpa [spliceGo] using h2
  · intro s raw comps b old nw band i₀ hcp hread hne hm hmin
    obtain ⟨h1, h2⟩ := hstep s raw comps b old nw false band hcp hread hne
    have hocc : occScan old (bandOk band b old) false b 0 = [0 + i₀] := by
      apply occScan_first old _ hne
      · simpa [matchOk] using hm
      · intro d hd
        have := hmin d hd
        simpa [matchOk] using this
    simp only [Nat.zero_add] at hocc
    rw [hocc] at h1 h2
    rw [h1]
    refine ⟨rfl, ?_⟩
    rw [h1] at h2
    rw [spliceGo_single] at h2
    exact h2
  · intro s raw comps b old nw band hcp hread hne
    obtain ⟨h1, h2⟩ := hstep s raw comps b old nw true band hcp hread hne
    refine ⟨by rw [h1], h2, ?_, ?_⟩
    · intro j hj
      obtain ⟨-, hpre⟩ :=
        occScan_all_sound old (bandOk band b old) hne b.length b 0 le_rfl j hj
      simpa [matchOk] using hpre
    · intro i hm
      have hc : (old.isPrefixOf (b.drop i) && bandOk band b old (0 + i)) = true := by
        simpa [matchOk] using hm
      obtain ⟨j, hjmem, hj1, hj2⟩ :=
        occScan_all_cover old (bandOk band b old) hne b.length b 0 le_rfl i hc
      exact ⟨j, hjmem, by simpa using hj1, by simpa using hj2⟩

/-- Witness for C8: replacing the first `foo` by `X` in `foo bar foo`
returns 1 and splices at position 0. -/
theorem c8_replace_witness :
    (exec (some (.dir [([102], .file [102, 111, 111, 32, 102, 111, 111])]))
        (.replace [47, 102] [102, 111, 111] [88] false none)).2 = .int 1 ∧
    fileAt (rootOf (exec (some (.dir [([102],
        .file [102, 111, 111, 32, 102, 111, 111])]))
        (.replace [47, 102] [102, 111, 111] [88] false none)).1) [[102]] =
      .ok (([102, 111, 111, 32, 102, 111, 111] : Bytes).take 0 ++ [88] ++
        ([102, 111, 111, 32, 102, 111, 111] : Bytes).drop (0 + 3)) :=
  c8_replace.2.2.1 (some (.dir [([102], .file [102, 111, 111, 32, 102, 111, 111])]))
    [47, 102] [[102]] [102, 111, 111, 32, 102, 111, 111] [102, 111, 111] [88]
    none 0 rfl rfl (by decide) (by decide) (fun j hj => absurd hj (by omega))

/-- Counterexample to C5 as frozen: for the one-byte file `h` (no newline
at all), `FS.WC` reports 1 line — as the repository's own test
(`src/tests/wc.py`, "Single line no newline") demands — while the number
of `\n` bytes in the content is 0. -/
theorem c5_wc_counterexample :
    (exec (exec none (.echo [47, 102] [104])).1 (.wc [47, 102])).2 =
      .wcTriple 1 1 1 ∧
    ([104] : Bytes).count 10 = 0 ∧ (1 : Nat) ≠ 0 :=
  ⟨by decide, by decide, by decide⟩

/-- C5 (amended): `FS.WC` on a file with content `b` reports
`lines = (linesOf b).length`, which equals the number of `\n` bytes in `b`
*plus one when `b` is nonempty and does not end in `\n`*; `words` is the
number of maximal whitespace-separated runs; `chars` is the byte length.
An absent key or path yields nil and a directory target yields
not-a-file. -/
theorem c5_wc_counts :
    (∀ (s : State) (raw : Bytes) (comps : List Name) (root : Node) (b : Bytes),
      s = some root → checkPath raw = .ok comps →
      resolvePath root true comps = .ok (.file b) →
      exec s (.wc raw) =
        (s, .wcTriple ((linesOf b).length) (wordRuns b) b.length)) ∧
    (∀ b : Bytes, (linesOf b).length =
      b.count 10 + (if b.getLast? = some 10 ∨ b = [] then 0 else 1)) ∧
    (∀ raw comps, checkPath raw = .ok comps → exec none (.wc raw) = (none, .nil)) ∧
    (∀ s raw comps root, s = some root → checkPath raw = .ok comps →
      resolvePath root true comps = .error .notFound →
      exec s (.wc raw) = (s, .nil)) ∧
    (∀ s raw comps root es, s = some root → checkPath raw = .ok comps →
      resolvePath root true comps = .ok (.dir es) →
      exec s (.wc raw) = (s, .err .notAFile)) := by
  refine ⟨?_, fun b => (wcLines_eq b).symm, ?_, ?_, ?_⟩
  · intro s raw comps root b hs hcp hres
    subst hs
    simp [exec, execE, wcReply, hcp, hres, wcLines_eq, wcWords_eq]
  · intro raw comps hcp
    simp [exec, execE, wcReply, hcp]
  · intro s raw comps root hs hcp hres
    subst hs
    simp [exec, execE, wcReply, hcp, hres]
  · intro s raw comps root es hs hcp hres
    subst hs
    simp [exec, execE, wcReply, hcp, hres]

/-- Witness for C5 (amended) on the two-line file `A\nB`. -/
theorem c5_wc_counts_witness :
    exec (some (.dir [([102], .file [65, 10, 66])])) (.wc [47, 102]) =
      (some (.dir [([102], .file [65, 10, 66])]),
        .wcTriple ((linesOf [65, 10, 66]).length) (wordRuns [65, 10, 66])
          ([65, 10, 66] : Bytes).length) :=
  c5_wc_counts.1 _ [47, 102] [[102]] (.dir [([102], .file [65, 10, 66])])
    [65, 10, 66] rfl rfl rfl

/-- C6: `FS.DELETELINES` deletes the inclusive 1-indexed range and returns
the number of lines actually deleted: the new content is the retained
lines (each carrying its terminating newline, so deleting the final line
keeps the newline that ended the previous retained line), `start` beyond
the line count deletes nothing and returns 0, `stop` beyond the line count
is clamped and leaves exactly the retained prefix, and `start < 1` or
`stop < start` yields invalid-argument with the volume unchanged. -/
theorem c6_deletelines :
    (∀ (s : State) (raw : Bytes) (comps : List Name) (b : Bytes) (start stop : Int),
      checkPath raw = .ok comps → fileAt (rootOf s) comps = .ok b →
      1 ≤ start → start ≤ stop →
      (exec s (.deleteLines raw start stop)).2 =
          .int ((min stop.toNat (linesOf b).length -
            min (start.toNat - 1) (linesOf b).length : Nat) : Int) ∧
        fileAt (rootOf (exec s (.deleteLines raw start stop)).1) comps =
          .ok (((linesOf b).take (start.toNat - 1) ++
            (linesOf b).drop stop.toNat).flatten)) ∧
    (∀ s raw comps b start stop, checkPath raw = .ok comps →
      fileAt (rootOf s) comps = .ok b →
      1 ≤ start → start ≤ stop → ((linesOf b).length : Int) < start →
      (exec s (.deleteLines raw start stop)).2 = .int 0 ∧
        fileAt (rootOf (exec s (.deleteLines raw start stop)).1) comps = .ok b) ∧
    (∀ s raw comps b start stop, checkPath raw = .ok comps →
      fileAt (rootOf s) comps = .ok b →
      1 ≤ start → start ≤ stop → ((linesOf b).length : Int) ≤ stop →
      (exec s (.deleteLines raw start stop)).2 =
          .int (((linesOf b).length - min (start.toNat - 1) (linesOf b).length : Nat) : Int) ∧
        fileAt (rootOf (exec s (.deleteLines raw start stop)).1) comps =
          .ok (((linesOf b).take (start.toNat - 1)).flatten)) ∧
    (∀ s raw comps start stop, checkPath raw = .ok comps →
      (start < 1 ∨ stop < start) →
      exec s (.deleteLines raw start stop) = (s, .err .invalidArgument)) := by
  have main : ∀ (s : State) (raw : Bytes) (comps : List Name) (b : Bytes)
      (start stop : Int),
      checkPath raw = .ok comps → fileAt (rootOf s) comps = .ok b →
      1 ≤ start → start ≤ stop →
      (exec s (.deleteLines raw start stop)).2 =
          .int ((min stop.toNat (linesOf b).length -
            min (start.toNat - 1) (linesOf b).length : Nat) : Int) ∧
        fileAt (rootOf (exec s (.deleteLines raw start stop)).1) comps =
          .ok (((linesOf b).take (start.toNat - 1) ++
            (linesOf b).drop stop.toNat).flatten) := by
    intro s raw comps b start stop hcp hread h1 h2
    have hv : ¬(start < 1 ∨ stop < start) := by omega
    have hf : (fun ob => match ob with
        | none => (.error .notFound : Except Err (Bytes × Int))
        | some bs => .ok (deleteLinesBytes start.toNat stop.toNat bs)) (some b) =
        .ok (takeLines (start.toNat - 1) b ++ dropLines stop.toNat b,
          ((min stop.toNat (wcLines b) - min (start.toNat - 1) (wcLines b) : Nat) :
            Int)) := rfl
    obtain ⟨n', hupd, hread'⟩ := updateFile_fileAt_ok false
      (fun ob => match ob with
        | none => (.error .notFound : Except Err (Bytes × Int))
        | some bs => .ok (deleteLinesBytes start.toNat stop.toNat bs)) hf hread
    have hx : exec s (.deleteLines raw start stop) =
        (some n', .int ((min stop.toNat (wcLines b) -
          min (start.toNat - 1) (wcLines b) : Nat) : Int)) := by
      simp [exec, execE, hcp, hv, hupd]
    rw [hx]
    constructor
    · rw [wcLines_eq]
    · rw [rootOf, hread', takeLines_eq, dropLines_eq, List.flatten_append]
  refine ⟨main, ?_, ?_, ?_⟩
  · intro s raw comps b start stop hcp hread h1 h2 hbig
    obtain ⟨hr, hc⟩ := main s raw comps b start stop hcp hread h1 h2
    constructor
    · rw [hr]
      congr 1
      omega
    · rw [hc]
      have ht : (linesOf b).take (start.toNat - 1) = linesOf b :=
        List.take_of_length_le (by omega)
      have hd : (linesOf b).drop stop.toNat = [] :=
        List.drop_eq_nil_of_le (by omega)
      rw [ht, hd, List.append_nil, flatten_linesOf]
  · intro s raw comps b start stop hcp hread h1 h2 hclamp
    obtain ⟨hr, hc⟩ := main s raw comps b start stop hcp hread h1 h2
    constructor
    · rw [hr]
      congr 1
      omega
    · rw [hc]
      have hd : (linesOf b).drop stop.toNat = [] :=
        List.drop_eq_nil_of_le (by omega)
      rw [hd, List.append_nil]
  · intro s raw comps start stop hcp hv
    simp [exec, execE, hcp, hv]

/-- Witness for C6: deleting line 3 of `A\nB\nC` returns 1 and leaves
`A\nB\n` — the newline terminating retained line 2 survives. -/
theorem c6_deletelines_witness :
    (exec (some (.dir [([102], .file [65, 10, 66, 10, 67])]))
        (.deleteLines [47, 102] 3 3)).2 =
      .int ((min (Int.toNat 3) (linesOf [65, 10, 66, 10, 67]).length -
        min (Int.toNat 3 - 1) (linesOf [65, 10, 66, 10, 67]).length : Nat) : Int) ∧
    fileAt (rootOf (exec (some (.dir [([102], .file [65, 10, 66, 10, 67])]))
        (.deleteLines [47, 102] 3 3)).1) [[102]] =
      .ok (((linesOf [65, 10, 66, 10, 67]).take (Int.toNat 3 - 1) ++
        (linesOf [65, 10, 66, 10, 67]).drop (Int.toNat 3)).flatten) :=
  c6_deletelines.1 (some (.dir [([102], .file [65, 10, 66, 10, 67])]))
    [47, 102] [[102]] [65, 10, 66, 10, 67] 3 3 rfl rfl
    (by norm_num) (by norm_num)

/-- C7: `FS.INSERT` places the content (which may contain newlines) after
the given 1-indexed line: `after_line = 0` prepends, `after_line = -1`
appends at the end, `after_line` at or beyond the line count appends after
a newline separator (no separator when the file is empty), `after_line <
-1` yields invalid-argument with the volume unchanged, and inserting into
an absent file auto-creates it holding exactly the content. -/
theorem c7_insert :
    (∀ (s : State) (raw : Bytes) (a : Int) (x : Bytes) (comps : List Name),
      checkPath raw = .ok comps → a < -1 →
      exec s (.insert raw a x) = (s, .err .invalidArgument)) ∧
    (∀ (s : State) (raw : Bytes) (comps : List Name) (b : Bytes) (a : Int)
      (x : Bytes),
      checkPath raw = .ok comps → fileAt (rootOf s) comps = .ok b → -1 ≤ a →
      (exec s (.insert raw a x)).2 = .ok ∧
      fileAt (rootOf (exec s (.insert raw a x)).1) comps =
        .ok (if a = -1 ∨ ((linesOf b).length : Int) ≤ a then
               (if b.isEmpty then x
                else if b.getLast? = some 10 then b ++ x else b ++ 10 :: x)
             else ((linesOf b).take a.toNat).flatten ++ x ++
               10 :: ((linesOf b).drop a.toNat).flatten)) ∧
    (∀ (s : State) (raw : Bytes) (comps : List Name) (b : Bytes) (x : Bytes),
      checkPath raw = .ok comps → fileAt (rootOf s) comps = .ok b → b ≠ [] →
      fileAt (rootOf (exec s (.insert raw 0 x)).1) comps = .ok (x ++ 10 :: b)) ∧
    (∀ (s : State) (raw : Bytes) (comps : List Name) (a : Int) (x : Bytes),
      checkPath raw = .ok comps → fileAt (rootOf s) comps = .error .notFound →
      -1 ≤ a →
      (exec s (.insert raw a x)).2 = .ok ∧
      fileAt (rootOf (exec s (.insert raw a x)).1) comps = .ok x) := by
  have hins : ∀ (a : Int) (x b : Bytes), insertContent a x (some b) =
      (if a = -1 ∨ ((linesOf b).length : Int) ≤ a then
        (if b.isEmpty then x
         else if b.getLast? = some 10 then b ++ x else b ++ 10 :: x)
       else ((linesOf b).take a.toNat).flatten ++ x ++
         10 :: ((linesOf b).drop a.toNat).flatten) := by
    intro a x b
    have h0 : insertContent a x (some b) =
        (if a = -1 ∨ ((wcLines b : Nat) : Int) ≤ a then
          (if b.isEmpty then x
           else if b.getLast? = some 10 then b ++ x else b ++ 10 :: x)
         else takeLines a.toNat b ++ x ++ 10 :: dropLines a.toNat b) := rfl
    rw [h0, wcLines_eq, takeLines_eq, dropLines_eq]
  have main : ∀ (s : State) (raw : Bytes) (comps : List Name) (b : Bytes) (a : Int)
      (x : Bytes),
      checkPath raw = .ok comps → fileAt (rootOf s) comps = .ok b → -1 ≤ a →
      (exec s (.insert raw a x)).2 = .ok ∧
      fileAt (rootOf (exec s (.insert raw a x)).1) comps =
        .ok (if a = -1 ∨ ((linesOf b).length : Int) ≤ a then
               (if b.isEmpty then x
                else if b.getLast? = some 10 then b ++ x else b ++ 10 :: x)
             else ((linesOf b).take a.toNat).flatten ++ x ++
               10 :: ((linesOf b).drop a.toNat).flatten) := by
    intro s raw comps b a x hcp hread ha
    have hv : ¬(a < -1) := by omega
    have hf : (fun ob => .ok (insertContent a x ob, 0) :
        Option Bytes → Except Err (Bytes × Int)) (some b) =
        .ok (insertContent a x (some b), 0) := rfl
    obtain ⟨n', hupd, hread'⟩ := updateFile_fileAt_ok true
      (fun ob => .ok (insertContent a x ob, 0)) hf hread
    have hx : exec s (.insert raw a x) = (some n', .ok) := by
      simp [exec, execE, hcp, hv, hupd]
    rw [hx]
    exact ⟨rfl, by rw [rootOf, hread', hins]⟩
  refine ⟨?_, main, ?_, ?_⟩
  · intro s raw a x comps hcp ha
    have hv : a < -1 := ha
    simp [exec, execE, hcp, hv]
  · intro s raw comps b x hcp hread hb
    obtain ⟨-, hc⟩ := main s raw comps b 0 x hcp hread (by norm_num)
    rw [hc]
    have hlen : 0 < (linesOf b).length := by
      cases hl : linesOf b with
      | nil => exact absurd ((linesOf_eq_nil_iff b).mp hl) hb
      | cons l ls => simp
    have hcond : ¬((0 : Int) = -1 ∨ ((linesOf b).length : Int) ≤ 0) := by
      push_neg
      constructor
      · norm_num
      · exact_mod_cast hlen
    rw [if_neg hcond]
    simp [flatten_linesOf]
  · intro s raw comps a x hcp hread ha
    have hv : ¬(a < -1) := by omega
    have hf : (fun ob => .ok (insertContent a x ob, 0) :
        Option Bytes → Except Err (Bytes × Int)) none = .ok (x, 0) := rfl
    obtain ⟨n', hupd, hread'⟩ := updateFile_fileAt_create
      (fun ob => .ok (insertContent a x ob, 0)) hf hread
    have hx : exec s (.insert raw a x) = (some n', .ok) := by
      simp [exec, execE, hcp, hv, hupd]
    rw [hx]
    exact ⟨rfl, by rw [rootOf, hread']⟩

/-- Witness for C7: inserting `X` after line 1 of `A\nB` succeeds and the
file reads back per the placement formula (`A\nX\nB`). -/
theorem c7_insert_witness :
    (exec (some (.dir [([102], .file [65, 10, 66])])) (.insert [47, 102] 1 [88])).2 =
      .ok ∧
    fileAt (rootOf (exec (some (.dir [([102], .file [65, 10, 66])]))
        (.insert [47, 102] 1 [88])).1) [[102]] =
      .ok (if (1 : Int) = -1 ∨ ((linesOf [65, 10, 66]).length : Int) ≤ 1 then
            (if ([65, 10, 66] : Bytes).isEmpty then [88]
             else if ([65, 10, 66] : Bytes).getLast? = some 10 then
               [65, 10, 66] ++ [88]
             else [65, 10, 66] ++ 10 :: [88])
           else ((linesOf [65, 10, 66]).take (Int.toNat 1)).flatten ++ [88] ++
             10 :: ((linesOf [65, 10, 66]).drop (Int.toNat 1)).flatten) :=
  c7_insert.2.1 (some (.dir [([102], .file [65, 10, 66])])) [47, 102] [[102]]
    [65, 10, 66] 1 [88] rfl rfl (by norm_num)

/-- C1: whenever `FS.ECHO key p x` succeeds (it does for every path other
than `/` whose prefix is unobstructed — writing to `/` is invalid-path —
and for every binary byte string `x`, including empty, NUL-carrying and
non-UTF-8 ones, since content is an arbitrary `List Nat`), a following
`FS.CAT key p` returns exactly `x`, and every proper prefix of the
normalised path — the auto-created intermediate parent directories —
resolves to a directory afterwards. -/
theorem c1_echo_cat :
    ∀ (s : State) (raw x : Bytes) (s' : State),
      exec s (.echo raw x) = (s', .ok) →
      exec s' (.cat raw) = (s', .bulk x) ∧
      (∀ comps, normPath raw = some comps →
        ∀ k, k < comps.length → isDirAt s' (comps.take k) = true) := by
  intro s raw x s' h
  cases hE : execE s (.echo raw x) with
  | error e =>
    rw [exec, hE] at h
    exact absurd (congrArg Prod.snd h) (by simp)
  | ok p =>
    rw [exec, hE] at h
    subst h
    cases hcp : checkPath raw with
    | error e =>
      have hX : execE s (.echo raw x) = .error e := by simp [execE, hcp]
      rw [hX] at hE
      exact absurd hE (by simp)
    | ok comps =>
      cases hup : updateFile (fun _ => .ok (x, 0)) true (rootOf s) comps with
      | error e =>
        have hX : execE s (.echo raw x) = .error e := by simp [execE, hcp, hup]
        rw [hX] at hE
        exact absurd hE (by simp)
      | ok pr =>
        obtain ⟨root', r'⟩ := pr
        have hX : execE s (.echo raw x) = .ok (some root', .ok) := by
          simp [execE, hcp, hup]
        have hE2 := hX.symm.trans hE
        simp only [Except.ok.injEq, Prod.mk.injEq] at hE2
        obtain ⟨hs', -⟩ := hE2
        obtain ⟨es, name, rest, v, hes, hcomps, -⟩ := updateFile_ok_shape hup
        rw [hes] at hup
        obtain ⟨hfound, hpfx⟩ := walk_after_echo x comps es root' r' hup
        constructor
        · have hres : resolvePath root' true comps = .ok (.file x) :=
            resolveFuel_found _ _ _ _ _ (hfound true [])
          rw [← hs']
          simp [exec, execE, catReply, hcp, resolvePath] at hres ⊢
          rw [hres]
        · intro comps0 hnorm0 k hk
          have hnc := checkPath_ok_norm hcp
          rw [hnc] at hnorm0
          injection hnorm0 with hcc
          subst hcc
          obtain ⟨es2, hw⟩ := hpfx k hk false []
          have hres := resolveFuel_found root' false (maxSymlinkHops - 1) _ _ hw
          rw [← hs']
          simp [isDirAt, resolvePath]
          rw [hres]

/-- Witness for C1: echoing the bytes `[0, 255, 10]` to `/h/f` on an
absent volume, `FS.CAT` returns them and `/h` is a directory. -/
theorem c1_echo_cat_witness :
    exec (some (.dir [([104], .dir [([102], .file [0, 255, 10])])]))
        (.cat [47, 104, 47, 102]) =
      (some (.dir [([104], .dir [([102], .file [0, 255, 10])])]),
        .bulk [0, 255, 10]) ∧
    isDirAt (some (.dir [([104], .dir [([102], .file [0, 255, 10])])]))
      [[104]] = true :=
  ⟨(c1_echo_cat none [47, 104, 47, 102] [0, 255, 10]
      (some (.dir [([104], .dir [([102], .file [0, 255, 10])])])) rfl).1,
   (c1_echo_cat none [47, 104, 47, 102] [0, 255, 10]
      (some (.dir [([104], .dir [([102], .file [0, 255, 10])])])) rfl).2
     [[104], [102]] (by decide) 1 (by decide)⟩

/-- C9: for every directory `d` (other than the root, whose move already
fails as invalid-path) and every destination inside `d`'s own subtree
(the normalised source is a proper prefix of the normalised destination),
`FS.MV` fails with invalid-argument; the check precedes any mutation, so
the volume — and with it the source directory and everything under it —
is exactly what it was, and resolves exactly as before. -/
theorem c9_mv_into_own_subtree :
    ∀ (s : State) (src dst : Bytes) (sc dc : List Name) (root : Node)
      (es : List (Name × Node)),
      normPath src = some sc → sc.length ≤ 256 →
      normPath dst = some dc → dc.length ≤ 256 →
      sc ≠ [] →
      s = some root → resolvePath root false sc = .ok (.dir es) →
      sc.isPrefixOf dc = true → sc ≠ dc →
      exec s (.mv src dst) = (s, .err .invalidArgument) ∧
        (∀ q, exec ((exec s (.mv src dst)).1) q = exec s q) := by
  intro s src dst sc dc root es hns hls hnd hld hne hroot hdir hpre hne2
  have hmv : exec s (.mv src dst) = (s, .err .invalidArgument) := by
    have hes : sc.isEmpty = false := by
      cases sc with
      | nil => exact absurd rfl hne
      | cons a t => rfl
    simp [exec, execE, checkPath_inDepth src sc hns hls,
      checkPath_inDepth dst dc hnd hld, hes, hpre, hne2]
  exact ⟨hmv, fun q => by rw [hmv]⟩

/-- Witness for C9: moving `/a` (which holds `/a/file`) to `/a/s/n` fails
with invalid-argument and `/a/file` still resolves. -/
theorem c9_mv_into_own_subtree_witness :
    exec (some (.dir [([97], .dir [([102], .file [112])])]))
        (.mv [47, 97] [47, 97, 47, 115, 47, 110]) =
      (some (.dir [([97], .dir [([102], .file [112])])]), .err .invalidArgument) ∧
    (exec (some (.dir [([97], .dir [([102], .file [112])])]))
        (.testPath [47, 97, 47, 102])).2 = .int 1 :=
  ⟨(c9_mv_into_own_subtree (some (.dir [([97], .dir [([102], .file [112])])]))
      [47, 97] [47, 97, 47, 115, 47, 110] [[97]] [[97], [115], [110]]
      (.dir [([97], .dir [([102], .file [112])])]) [([102], .file [112])]
      (by decide) (by decide) (by decide) (by decide) (by decide) rfl rfl
      (by decide) (by decide)).1,
   by decide⟩

/-- C4: symlink resolution is bounded by a hop counter — a chain of 39
symlinks ending at a file resolves (`FS.CAT` returns the file's content),
a chain of 40 or more hops fails with symlink-loop, and the same counter
makes a direct self-referencing symlink and a two-link A↔B cycle fail with
symlink-loop rather than loop forever. -/
theorem c4_symlink_loop_bound :
    (exec (chainState 39) (.cat (47 :: linkName 38)) =
      (chainState 39, .bulk chainContent)) ∧
    (∀ n, 40 ≤ n →
      exec (chainState n) (.cat (47 :: linkName (n - 1))) =
        (chainState n, .err .symlinkLoop)) ∧
    ((exec (exec none (.ln [47, 115] [47, 115])).1 (.cat [47, 115])).2 =
      .err .symlinkLoop) ∧
    ((exec (exec (exec none (.ln [47, 98] [47, 97])).1 (.ln [47, 97] [47, 98])).1
        (.cat [47, 97])).2 = .err .symlinkLoop) := by
  refine ⟨?_, ?_, by decide, by decide⟩
  · obtain ⟨h47, hne, hd1, hd2⟩ := linkName_plain 38
    have hcp := checkPath_single (linkName 38) h47 hne hd1 hd2
    have hres := resolveFuel_chain 39 38 39 (by omega)
    simp only [chainState, exec, execE, catReply, hcp, resolvePath, maxSymlinkHops] at *
    norm_num at hres
    rw [hres]
  · intro n hn
    obtain ⟨h47, hne, hd1, hd2⟩ := linkName_plain (n - 1)
    have hcp := checkPath_single (linkName (n - 1)) h47 hne hd1 hd2
    have hres := resolveFuel_chain n (n - 1) 39 (by omega)
    have hge : ¬(n - 1 < 39) := by omega
    simp only [hge, if_false] at hres
    simp only [chainState, exec, execE, catReply, hcp, resolvePath, maxSymlinkHops]
    norm_num
    rw [hres]

/-- Witness for C4: the 40-hop chain fails with symlink-loop. -/
theorem c4_symlink_loop_bound_witness :
    exec (chainState 40) (.cat (47 :: linkName 39)) =
      (chainState 40, .err .symlinkLoop) :=
  c4_symlink_loop_bound.2.1 40 (by norm_num)

/-- C10: every `FS.*` invocation routed through `RedisFS._execute`
translates module response errors by lowercase message substring: "no such
filesystem" or "not found" become the return value `None`; otherwise
"not a file", "not a directory" and "symbolic links" raise `NotAFileError`,
`NotADirectoryError` and `SymlinkLoopError` respectively (checked in that
order); any other response error propagates unchanged, and a non-error
reply is returned as the value. -/
theorem c10_execute_error_translation :
    (∀ v, pyExecute (.ok v) = .retValue v) ∧
    (∀ msg : List Char,
      (containsSub ("no such filesystem".toList) (msg.map Char.toLower) = true ∨
          containsSub ("not found".toList) (msg.map Char.toLower) = true →
        pyExecute (.error msg) = .retNone) ∧
      (containsSub ("no such filesystem".toList) (msg.map Char.toLower) = false →
       containsSub ("not found".toList) (msg.map Char.toLower) = false →
        (containsSub ("not a file".toList) (msg.map Char.toLower) = true →
          pyExecute (.error msg) = .raiseNotAFile msg) ∧
        (containsSub ("not a file".toList) (msg.map Char.toLower) = false →
          (containsSub ("not a directory".toList) (msg.map Char.toLower) = true →
            pyExecute (.error msg) = .raiseNotADirectory msg) ∧
          (containsSub ("not a directory".toList) (msg.map Char.toLower) = false →
            (containsSub ("symbolic links".toList) (msg.map Char.toLower) = true →
              pyExecute (.error msg) = .raiseSymlinkLoop msg) ∧
            (containsSub ("symbolic links".toList) (msg.map Char.toLower) = false →
              pyExecute (.error msg) = .reraise msg))))) := by
  refine ⟨fun v => rfl, fun msg => ⟨?_, ?_⟩⟩
  · intro h
    rcases h with h | h <;> simp at h <;> simp [pyExecute, h]
  · intro h1 h2
    simp at h1 h2
    refine ⟨fun h3 => ?_, fun h3 => ?_⟩
    · simp at h3
      simp [pyExecute, h1, h2, h3]
    · simp at h3
      refine ⟨fun h4 => ?_, fun h4 => ?_⟩
      · simp at h4
        simp [pyExecute, h1, h2, h3, h4]
      · simp at h4
        refine ⟨fun h5 => ?_, fun h5 => ?_⟩
        · simp at h5
          simp [pyExecute, h1, h2, h3, h4, h5]
        · simp at h5
          simp [pyExecute, h1, h2, h3, h4, h5]

/-- Witness for C10 at concrete messages, one per translation branch. -/
theorem c10_execute_error_translation_witness :
    pyExecute (.error ("ERR No Such Filesystem".toList)) = .retNone ∧
    pyExecute (.error ("ERR target is not a file".toList)) =
      .raiseNotAFile ("ERR target is not a file".toList) ∧
    pyExecute (.error ("ERR not a directory".toList)) =
      .raiseNotADirectory ("ERR not a directory".toList) ∧
    pyExecute (.error ("ERR too many levels of symbolic links".toList)) =
      .raiseSymlinkLoop ("ERR too many levels of symbolic links".toList) ∧
    pyExecute (.error ("WRONGTYPE key holds a string".toList)) =
      .reraise ("WRONGTYPE key holds a string".toList) :=
  ⟨((c10_execute_error_translation.2 _).1 (Or.inl (by decide))),
   (((c10_execute_error_translation.2 _).2 (by decide) (by decide)).1 (by decide)),
   ((((c10_execute_error_translation.2 _).2 (by decide) (by decide)).2 (by decide)).1
     (by decide)),
   (((((c10_execute_error_translation.2 _).2 (by decide) (by decide)).2 (by decide)).2
     (by decide)).1 (by decide)),
   (((((c10_execute_error_translation.2 _).2 (by decide) (by decide)).2 (by decide)).2
     (by decide)).2 (by decide))⟩

end RFS
